import Mathlib

/-!
Verification of the MARC map cost-propagation engine (src/map.c, include/map.h,
include/loc.h) against its natural-language specification.

The engine is embedded shallowly: soil grids are total functions from positions
to soil kinds, the mutable cost array is a total function from positions to
natural numbers, and every unsigned 32-bit operation of the C source carries an
explicit modulus.  The FIFO queue used by compute_costs is declared in
include/queue.h but its implementation (queue.c) is not among the sources, so
the queue is modelled from the spec, section 4.3: a FIFO of coordinates,
dequeue at the head, enqueue at the tail.
-/

namespace MARC

/-- Two to the 32nd power, the modulus of the unsigned 32-bit arithmetic used
throughout src/map.c. -/
def U32MOD : Nat := 4294967296

/-- The undefined-cost sentinel COST_UNDEF of include/map.h (0xFFFFFFFF). -/
def COST_UNDEF : Nat := 4294967295

/-- The soil kinds, from the enum soil of include/map.h. -/
inductive Soil where
  | BASE_STATION
  | PLAIN
  | ERG
  | REG
  | CREVASSE
deriving DecidableEq

/-- The terrain-cost table, the array soil_cost of include/map.h. -/
def soilCost : Soil → Nat
  | Soil.BASE_STATION => 0
  | Soil.PLAIN => 1
  | Soil.ERG => 2
  | Soil.REG => 4
  | Soil.CREVASSE => 10000

/-- A grid position, the struct position of include/loc.h; both coordinates are
unsigned 32-bit numbers in the source. -/
structure Pos where
  x : Nat
  y : Nat
deriving DecidableEq

/-- The macro POSITION_IS_VALID of include/loc.h. -/
def posValid (p : Pos) (w h : Nat) : Prop := p.x < w ∧ p.y < h

instance (p : Pos) (w h : Nat) : Decidable (posValid p w h) := by
  unfold posValid; infer_instance

/-- The map structure map_s of include/map.h: the dimensions and the immutable
soil grid.  The mutable cost array is carried separately as run state. -/
structure Map where
  width : Nat
  height : Nat
  soils : Pos → Soil

/-- The four neighbour positions of p, in the order of the direction_vectors
table of include/loc.h as used by compute_cell_cost (x plus dv0, y plus dv1),
with the wrap-around of the C unsigned addition made explicit. -/
def neighborList (p : Pos) : List Pos :=
  [⟨(p.x + (U32MOD - 1)) % U32MOD, p.y⟩,
   ⟨(p.x + 1) % U32MOD, p.y⟩,
   ⟨p.x, (p.y + (U32MOD - 1)) % U32MOD⟩,
   ⟨p.x, (p.y + 1) % U32MOD⟩]

/-- Pointwise update of a cost field, one assignment into the 2d costs array. -/
def updF (f : Pos → Nat) (p : Pos) (v : Nat) : Pos → Nat :=
  fun q => if q = p then v else f q

/-- The running state of the neighbour loop of compute_cell_cost: the running
minimum, the cost field (pending marks are written during the loop), and the
list of coordinates enqueued so far. -/
structure ScanState where
  costMin : Nat
  costs : Pos → Nat
  enq : List Pos

/-- One iteration of the neighbour loop of compute_cell_cost in src/map.c:
bounds check, then either lower the running minimum or, when a queue is
present and the neighbour cost is COST_UNDEF, enqueue the neighbour and mark
it with the pending sentinel COST_UNDEF minus one. -/
def ccVisit (m : Map) (useQueue : Bool) (s : ScanState) (np : Pos) : ScanState :=
  if np.x < m.width ∧ np.y < m.height then
    if s.costs np < s.costMin then { s with costMin := s.costs np }
    else if useQueue ∧ s.costs np = COST_UNDEF then
      { s with costs := updF s.costs np (COST_UNDEF - 1), enq := s.enq ++ [np] }
    else s
  else s

/-- The result of compute_cell_cost: the computed cost value, the cost field
after the pending marks, and the newly enqueued coordinates in order. -/
structure CellResult where
  value : Nat
  costs : Pos → Nat
  enq : List Pos

/-- compute_cell_cost of src/map.c.  useQueue false models the NULL queue
argument used by remove_false_costs. -/
def computeCellCost (m : Map) (useQueue : Bool) (costs : Pos → Nat) (p : Pos) :
    CellResult :=
  let t := soilCost (m.soils p)
  let s := (neighborList p).foldl (ccVisit m useQueue) ⟨COST_UNDEF, costs, []⟩
  ⟨if t ≠ 0 then (s.costMin + t) % U32MOD else 0, s.costs, s.enq⟩

/-- The state of one propagation run of compute_costs: the cost field and the
FIFO queue (modelled from the spec, section 4.3: queue.c is not among the
sources), together with a ghost per-cell count of enqueue events.  The ghost
count influences nothing; it only lets theorems speak about how often a cell
has been enqueued. -/
structure RunState where
  costs : Pos → Nat
  queue : List Pos
  enqCount : Pos → Nat

/-- One iteration of the while loop of compute_costs in src/map.c: dequeue the
head, run compute_cell_cost on it (which may mark and enqueue neighbours at
the tail), and store the returned cost at the dequeued cell. -/
def step (m : Map) (s : RunState) : RunState :=
  match s.queue with
  | [] => s
  | c :: rest =>
    let r := computeCellCost m true s.costs c
    ⟨updF r.costs c r.value, rest ++ r.enq, fun q => s.enqCount q + r.enq.count q⟩

/-- The run state after n iterations of the while loop. -/
def stepN (m : Map) (n : Nat) (s : RunState) : RunState :=
  match n with
  | 0 => s
  | n + 1 => stepN m n (step m s)

/-- The inner x loop of get_base_station_pos in src/map.c, scanning row y from
column x with k columns left to scan. -/
def scanRowFrom (m : Map) (y : Nat) : Nat → Nat → Option Nat
  | 0, _ => none
  | k + 1, x =>
    if m.soils ⟨x, y⟩ = Soil.BASE_STATION then some x else scanRowFrom m y k (x + 1)

/-- The outer y loop of get_base_station_pos, scanning from row y with k rows
left to scan. -/
def scanRowsFrom (m : Map) : Nat → Nat → Option Pos
  | 0, _ => none
  | k + 1, y =>
    match scanRowFrom m y m.width 0 with
    | some x => some ⟨x, y⟩
    | none => scanRowsFrom m k (y + 1)

/-- get_base_station_pos of src/map.c: the first BASE_STATION cell in row-major
scan order (y outer, x inner), or the sentinel position with both coordinates
0xFFFFFFFF when the map holds none. -/
def getBaseStationPos (m : Map) : Pos :=
  match scanRowsFrom m m.height 0 with
  | some p => p
  | none => ⟨COST_UNDEF, COST_UNDEF⟩

/-- The cost field produced by map_fill_from_file: memset with byte 0xFF, so
every cell holds COST_UNDEF. -/
def initialCosts : Pos → Nat := fun _ => COST_UNDEF

/-- The run state of compute_costs right after the base station is enqueued. -/
def initState (m : Map) : RunState :=
  ⟨initialCosts, [getBaseStationPos m],
   fun q => if q = getBaseStationPos m then 1 else 0⟩

/-- compute_costs of src/map.c, the while loop given explicit fuel.  The C loop
runs until the queue is empty; step is the identity on an empty queue, so any
fuel at which the queue has emptied yields the loop's final state.  When the
base-station lookup returns the sentinel, the function aborts and the cost
field is left untouched. -/
def computeCostsRun (m : Map) (fuel : Nat) : RunState :=
  let b := getBaseStationPos m
  if b.x = COST_UNDEF ∨ b.y = COST_UNDEF then ⟨initialCosts, [], fun _ => 0⟩
  else stepN m fuel (initState m)

/-- The row-major list of all grid positions (y outer, x inner). -/
def rowMajor (m : Map) : List Pos :=
  (List.range m.height).flatMap (fun y => (List.range m.width).map (fun x => ⟨x, y⟩))

/-- One cell of the repair sweep of remove_false_costs in src/map.c: when the
cell is not a crevasse and its current cost exceeds 10000, recompute it with a
NULL queue. -/
def repairCell (m : Map) (cs : Pos → Nat) (p : Pos) : Pos → Nat :=
  if m.soils p ≠ Soil.CREVASSE ∧ cs p > 10000 then
    updF (computeCellCost m false cs p).costs p (computeCellCost m false cs p).value
  else cs

/-- remove_false_costs of src/map.c: one row-major sweep of repairCell. -/
def removeFalseCosts (m : Map) (cs : Pos → Nat) : Pos → Nat :=
  (rowMajor m).foldl (repairCell m) cs

/-- The cost field after map_from_file of src/map.c returns: costs initialised
to COST_UNDEF, compute_costs, then remove_false_costs (the repair sweep runs
even when compute_costs aborted for want of a base station). -/
def mapFromFileCosts (m : Map) (fuel : Nat) : Pos → Nat :=
  removeFalseCosts m (computeCostsRun m fuel).costs

/-- Manhattan distance between two positions. -/
def manhattan (p q : Pos) : Nat := Nat.dist p.x q.x + Nat.dist p.y q.y

/-- A 1-by-1 map holding a single PLAIN cell: a grid without a base station. -/
def noOriginMap : Map := ⟨1, 1, fun _ => Soil.PLAIN⟩

/-- A 2-wide, 1-high map: BASE_STATION at x 0, ERG at x 1. -/
def rowBaseErg : Map :=
  ⟨2, 1, fun p => if p.x = 0 then Soil.BASE_STATION else Soil.ERG⟩

/-- A 4-wide, 1-high map: BASE_STATION, CREVASSE, BASE_STATION, PLAIN — two
origin cells separated by a crevasse. -/
def twoOriginMap : Map :=
  ⟨4, 1, fun p =>
    if p.x = 0 then Soil.BASE_STATION
    else if p.x = 1 then Soil.CREVASSE
    else if p.x = 2 then Soil.BASE_STATION
    else Soil.PLAIN⟩

/-- Modelled from the spec: the claim that origin cells beyond the first are
"treated as inert terrain for cost purposes" (spec section 7).  Identical to
computeCellCost except that the zero-cost rule applies only at the
distinguished first origin; every other cell, base-station terrain included,
costs the neighbour minimum plus its table cost. -/
def computeCellCostInert (m : Map) (first : Pos) (useQueue : Bool)
    (costs : Pos → Nat) (p : Pos) : CellResult :=
  let t := soilCost (m.soils p)
  let s := (neighborList p).foldl (ccVisit m useQueue) ⟨COST_UNDEF, costs, []⟩
  ⟨if p = first then 0 else (s.costMin + t) % U32MOD, s.costs, s.enq⟩

/-- The while-loop iteration of the inert-origin variant. -/
def stepInert (m : Map) (first : Pos) (s : RunState) : RunState :=
  match s.queue with
  | [] => s
  | c :: rest =>
    let r := computeCellCostInert m first true s.costs c
    ⟨updF r.costs c r.value, rest ++ r.enq, fun q => s.enqCount q + r.enq.count q⟩

/-- n iterations of the inert-origin variant. -/
def stepNInert (m : Map) (first : Pos) (n : Nat) (s : RunState) : RunState :=
  match n with
  | 0 => s
  | n + 1 => stepNInert m first n (stepInert m first s)

/-- The repair-sweep cell of the inert-origin variant. -/
def repairCellInert (m : Map) (first : Pos) (cs : Pos → Nat) (p : Pos) : Pos → Nat :=
  if m.soils p ≠ Soil.CREVASSE ∧ cs p > 10000 then
    updF (computeCellCostInert m first false cs p).costs p
      (computeCellCostInert m first false cs p).value
  else cs

/-- The final cost field of the inert-origin variant of the whole engine. -/
def inertFinalCosts (m : Map) (fuel : Nat) : Pos → Nat :=
  let first := getBaseStationPos m
  let s := stepNInert m first fuel
    ⟨initialCosts, [first], fun q => if q = first then 1 else 0⟩
  (rowMajor m).foldl (repairCellInert m first) s.costs

/-- The running minimum computed by the neighbour loop, expressed against a
fixed cost field: fold min over the bounds-valid positions of the list. -/
def minFold (m : Map) (costs : Pos → Nat) (l : List Pos) (a : Nat) : Nat :=
  l.foldl (fun a q => if q.x < m.width ∧ q.y < m.height then min a (costs q) else a) a

/-- The cost field after the neighbour loop: every bounds-valid member of the
list whose cost was COST_UNDEF is marked with the pending sentinel (only when
a queue is present). -/
def markAll (m : Map) (uq : Bool) (costs : Pos → Nat) (l : List Pos) : Pos → Nat :=
  fun q =>
    if uq ∧ (q.x < m.width ∧ q.y < m.height) ∧ q ∈ l ∧ costs q = COST_UNDEF
    then COST_UNDEF - 1 else costs q

/-- The coordinates enqueued by the neighbour loop, in visit order: the
bounds-valid members of the list whose cost was COST_UNDEF (when a queue is
present). -/
def enqList (m : Map) (uq : Bool) (costs : Pos → Nat) : List Pos → List Pos
  | [] => []
  | q :: r =>
    if uq ∧ (q.x < m.width ∧ q.y < m.height) ∧ costs q = COST_UNDEF
    then q :: enqList m uq costs r else enqList m uq costs r

/-- Modelled from the spec: the repair sweep with its recompute condition read
against the cost field as it stood when the sweep began (the claim wording of
C6), rather than against the evolving field. -/
def repairSweepSpec (m : Map) (cs : Pos → Nat) : Pos → Nat :=
  (rowMajor m).foldl
    (fun f p =>
      if m.soils p ≠ Soil.CREVASSE ∧ cs p > 10000 then
        updF f p (computeCellCost m false f p).value
      else f) cs

/-- The structural invariant of the propagation queue: no coordinate appears
twice among the enqueued-but-undequeued coordinates, every one of them is in
bounds, and every one of them carries the pending sentinel — except that the
freshly enqueued base station still carries COST_UNDEF, in which case it is
the sole queue entry. -/
def BasicInv (m : Map) (s : RunState) : Prop :=
  s.queue.Nodup ∧ (∀ c ∈ s.queue, posValid c m.width m.height) ∧
  (∀ c ∈ s.queue, s.costs c = COST_UNDEF - 1 ∨
    (s.costs c = COST_UNDEF ∧ s.queue = [c]))

/-- The number of grid cells whose cost is settled, that is, strictly below
the pending sentinel. -/
def settledCount (m : Map) (costs : Pos → Nat) : Nat :=
  (((Finset.range m.width) ×ˢ (Finset.range m.height)).filter
    (fun xy => costs ⟨xy.1, xy.2⟩ < COST_UNDEF - 1)).card

/-- The inductive invariant of the propagation run at step index k, once the
base station has been dequeued: the queue is duplicate-free, all queued cells
are in bounds and pending; every cell is undefined, pending, or settled at a
value at most 10000 k; every queued cell has a bounds-valid neighbour settled
at a value at most 10000 k (the cell whose processing enqueued it); and unless
the queue has emptied, exactly k cells are settled. -/
def KInv (m : Map) (k : Nat) (s : RunState) : Prop :=
  s.queue.Nodup ∧
  (∀ c ∈ s.queue, posValid c m.width m.height) ∧
  (∀ c ∈ s.queue, s.costs c = COST_UNDEF - 1) ∧
  (∀ p : Pos, posValid p m.width m.height →
    s.costs p = COST_UNDEF ∨ s.costs p = COST_UNDEF - 1 ∨
    s.costs p ≤ 10000 * k) ∧
  (∀ c ∈ s.queue, ∃ n ∈ neighborList c, posValid n m.width m.height ∧
    s.costs n ≤ 10000 * k) ∧
  (s.queue = [] ∨ settledCount m s.costs = k)

/-- Number of crevasse cells of the wrap-around chain map. -/
def monM : Nat := 429496

/-- Index of the chain cell whose accumulated cost is exactly COST_UNDEF. -/
def monK : Nat := 436791

/-- Width of the wrap-around chain map (monK plus 2). -/
def monN : Nat := 436793

/-- The wrap-around chain map: a 1-cell-high row of monN cells — the base
station, then monM crevasses, then plains.  Costs accumulate along the row
and reach exactly COST_UNDEF at cell monK, which therefore gets re-enqueued
by its right neighbour. -/
def monsterMap : Map :=
  ⟨monN, 1, fun p =>
    if p.x = 0 then Soil.BASE_STATION
    else if p.x ≤ monM then Soil.CREVASSE
    else Soil.PLAIN⟩

/-- The accumulated cost the chain cell (i, 0) settles at. -/
def monV (i : Nat) : Nat := 10000 * min i monM + (i - monM)

/-- The cost field of the chain run after i dequeues (for i between 1 and
monK plus 1): cells left of i settled at their accumulated cost, cell i
pending, the rest undefined. -/
def monCosts (i : Nat) : Pos → Nat :=
  fun p =>
    if p.y = 0 ∧ p.x < i then monV p.x
    else if p.y = 0 ∧ p.x = i then COST_UNDEF - 1
    else COST_UNDEF

/-- The ghost enqueue counts of the chain run after i dequeues: cells up to i
have been enqueued once. -/
def monEnq (i : Nat) : Pos → Nat :=
  fun p => if p.y = 0 ∧ p.x ≤ i then 1 else 0

/-- The BFS layer invariant of the propagation run on an all-plain grid with
the single origin b, at frontier depth d with queue split q1 (cells at
distance d) followed by q2 (cells at distance d plus 1): cells nearer than d
are settled at their Manhattan distance, cells at distance d are settled or
still in q1, a cell at distance d plus 1 is in q2 exactly when one of its
distance-d neighbours has settled, and everything farther is untouched. -/
def LInvAt (m : Map) (b : Pos) (s : RunState) (d : Nat) (q1 q2 : List Pos) :
    Prop :=
  1 ≤ d ∧
  s.queue = q1 ++ q2 ∧
  (q1 ++ q2).Nodup ∧
  (∀ p ∈ q1, posValid p m.width m.height ∧ manhattan p b = d ∧
    s.costs p = COST_UNDEF - 1) ∧
  (∀ p ∈ q2, posValid p m.width m.height ∧ manhattan p b = d + 1 ∧
    s.costs p = COST_UNDEF - 1) ∧
  (∀ p : Pos, posValid p m.width m.height → manhattan p b < d →
    s.costs p = manhattan p b) ∧
  (∀ p : Pos, posValid p m.width m.height → manhattan p b = d →
    s.costs p = d ∨ p ∈ q1) ∧
  (∀ p : Pos, posValid p m.width m.height → manhattan p b = d + 1 →
    (p ∈ q2 ↔ ∃ n ∈ neighborList p, posValid n m.width m.height ∧
      manhattan n b = d ∧ s.costs n = d)) ∧
  (∀ p : Pos, posValid p m.width m.height → manhattan p b = d + 1 →
    p ∉ q2 → s.costs p = COST_UNDEF) ∧
  (∀ p : Pos, posValid p m.width m.height → d + 1 < manhattan p b →
    s.costs p = COST_UNDEF)

/-- The layer invariant with the depth and queue split abstracted. -/
def LInv (m : Map) (b : Pos) (s : RunState) : Prop :=
  ∃ d q1 q2, LInvAt m b s d q1 q2

/-- A 2-by-2 all-plain map with its single base station at the origin
corner. -/
def plainSquare : Map :=
  ⟨2, 2, fun p => if p.x = 0 ∧ p.y = 0 then Soil.BASE_STATION else Soil.PLAIN⟩

/-! Basic lemmas about the embedding. -/

theorem updF_self (f : Pos → Nat) (p : Pos) (v : Nat) : updF f p v p = v := by
  simp [updF]

theorem updF_other (f : Pos → Nat) (p q : Pos) (v : Nat) (h : q ≠ p) :
    updF f p v q = f q := by
  simp [updF, h]

theorem wrapDec (x : Nat) (hx : x < U32MOD) :
    (x + (U32MOD - 1)) % U32MOD = if x = 0 then U32MOD - 1 else x - 1 := by
  rcases Nat.eq_zero_or_pos x with h0 | h0
  · subst h0; simp [U32MOD]
  · have hne : ¬ x = 0 := by omega
    rw [if_neg hne]
    have : x + (U32MOD - 1) = U32MOD + (x - 1) := by omega
    rw [this, Nat.add_mod_left, Nat.mod_eq_of_lt (by omega)]

theorem wrapInc (x : Nat) (hx : x < U32MOD) :
    (x + 1) % U32MOD = if x + 1 = U32MOD then 0 else x + 1 := by
  by_cases h : x + 1 = U32MOD
  · simp [h]
  · rw [if_neg h, Nat.mod_eq_of_lt (by omega)]

theorem neighborList_nodup (p : Pos) (hx : p.x < U32MOD) (hy : p.y < U32MOD) :
    (neighborList p).Nodup := by
  have hM : U32MOD = 4294967296 := rfl
  have hdec := wrapDec p.x hx
  have hinc := wrapInc p.x hx
  have hdecy := wrapDec p.y hy
  have hincy := wrapInc p.y hy
  have hx1 : (p.x + (U32MOD - 1)) % U32MOD ≠ (p.x + 1) % U32MOD := by
    rw [hdec, hinc]; split <;> split <;> omega
  have hx2 : (p.x + (U32MOD - 1)) % U32MOD ≠ p.x := by rw [hdec]; split <;> omega
  have hx3 : (p.x + 1) % U32MOD ≠ p.x := by rw [hinc]; split <;> omega
  have hy1 : (p.y + (U32MOD - 1)) % U32MOD ≠ (p.y + 1) % U32MOD := by
    rw [hdecy, hincy]; split <;> split <;> omega
  have hy2 : (p.y + (U32MOD - 1)) % U32MOD ≠ p.y := by rw [hdecy]; split <;> omega
  have hy3 : (p.y + 1) % U32MOD ≠ p.y := by rw [hincy]; split <;> omega
  simp [neighborList, Pos.mk.injEq, hx1, hx2, hx3, hy1, hy2, hy3,
    Ne.symm hx2, Ne.symm hx3, Ne.symm hy2, Ne.symm hy3]

theorem not_mem_neighborList_self (p : Pos) (hx : p.x < U32MOD) (hy : p.y < U32MOD) :
    p ∉ neighborList p := by
  have hM : U32MOD = 4294967296 := rfl
  obtain ⟨px, py⟩ := p
  simp only at hx hy
  have hdec := wrapDec px hx
  have hinc := wrapInc px hx
  have hdecy := wrapDec py hy
  have hincy := wrapInc py hy
  have hx2 : (px + (U32MOD - 1)) % U32MOD ≠ px := by rw [hdec]; split <;> omega
  have hx3 : (px + 1) % U32MOD ≠ px := by rw [hinc]; split <;> omega
  have hy2 : (py + (U32MOD - 1)) % U32MOD ≠ py := by rw [hdecy]; split <;> omega
  have hy3 : (py + 1) % U32MOD ≠ py := by rw [hincy]; split <;> omega
  simp [neighborList, Pos.mk.injEq, hx2, hx3, hy2, hy3,
    Ne.symm hx2, Ne.symm hx3, Ne.symm hy2, Ne.symm hy3]

theorem ccVisit_costMin (m : Map) (uq : Bool) (s : ScanState) (np : Pos)
    (h : s.costMin ≤ COST_UNDEF) :
    (ccVisit m uq s np).costMin =
      if np.x < m.width ∧ np.y < m.height then min s.costMin (s.costs np)
      else s.costMin := by
  unfold ccVisit
  have hnl : ¬ COST_UNDEF < s.costMin := Nat.not_lt.mpr h
  by_cases hv : np.x < m.width ∧ np.y < m.height
  · simp only [hv, if_true]
    by_cases hlt : s.costs np < s.costMin
    · simp [hlt, Nat.min_eq_right (Nat.le_of_lt hlt)]
    · by_cases hmk : uq = true ∧ s.costs np = COST_UNDEF
      · simp [hlt, hmk, hnl, Nat.min_eq_left h]
      · simp [hlt, hmk, hnl, Nat.min_eq_left (Nat.le_of_not_lt hlt),
          Nat.min_eq_left h]
  · simp [hv]

theorem ccVisit_costs (m : Map) (uq : Bool) (s : ScanState) (np : Pos)
    (h : s.costMin ≤ COST_UNDEF) :
    (ccVisit m uq s np).costs =
      if uq ∧ (np.x < m.width ∧ np.y < m.height) ∧ s.costs np = COST_UNDEF
      then updF s.costs np (COST_UNDEF - 1) else s.costs := by
  unfold ccVisit
  have hnl : ¬ COST_UNDEF < s.costMin := Nat.not_lt.mpr h
  by_cases hv : np.x < m.width ∧ np.y < m.height
  · simp only [hv, if_true]
    by_cases hlt : s.costs np < s.costMin
    · have : ¬ s.costs np = COST_UNDEF := by
        intro he; rw [he] at hlt; omega
      simp [hlt, hv, this]
    · by_cases hmk : uq = true ∧ s.costs np = COST_UNDEF
      · simp [hlt, hmk, hv, hnl]
      · have : ¬ (uq = true ∧ (np.x < m.width ∧ np.y < m.height) ∧
            s.costs np = COST_UNDEF) := by
          intro hcon; exact hmk ⟨hcon.1, hcon.2.2⟩
        simp [hlt, hmk, this, hnl]
  · simp [hv]

theorem ccVisit_enq (m : Map) (uq : Bool) (s : ScanState) (np : Pos)
    (h : s.costMin ≤ COST_UNDEF) :
    (ccVisit m uq s np).enq =
      if uq ∧ (np.x < m.width ∧ np.y < m.height) ∧ s.costs np = COST_UNDEF
      then s.enq ++ [np] else s.enq := by
  unfold ccVisit
  have hnl : ¬ COST_UNDEF < s.costMin := Nat.not_lt.mpr h
  by_cases hv : np.x < m.width ∧ np.y < m.height
  · simp only [hv, if_true]
    by_cases hlt : s.costs np < s.costMin
    · have : ¬ s.costs np = COST_UNDEF := by
        intro he; rw [he] at hlt; omega
      simp [hlt, hv, this]
    · by_cases hmk : uq = true ∧ s.costs np = COST_UNDEF
      · simp [hlt, hmk, hv, hnl]
      · have : ¬ (uq = true ∧ (np.x < m.width ∧ np.y < m.height) ∧
            s.costs np = COST_UNDEF) := by
          intro hcon; exact hmk ⟨hcon.1, hcon.2.2⟩
        simp [hlt, hmk, this, hnl]
  · simp [hv]

theorem ccVisit_costMin_le (m : Map) (uq : Bool) (s : ScanState) (np : Pos)
    (h : s.costMin ≤ COST_UNDEF) : (ccVisit m uq s np).costMin ≤ COST_UNDEF := by
  rw [ccVisit_costMin m uq s np h]
  split
  · exact le_trans (Nat.min_le_left _ _) h
  · exact h

theorem minFold_congr (m : Map) (c1 c2 : Pos → Nat) (l : List Pos) (a : Nat)
    (h : ∀ q ∈ l, c1 q = c2 q) : minFold m c1 l a = minFold m c2 l a := by
  induction l generalizing a with
  | nil => rfl
  | cons q r ih =>
    unfold minFold
    simp only [List.foldl_cons]
    rw [h q (List.mem_cons_self q r)]
    exact ih _ (fun q hq => h q (List.mem_cons_of_mem _ hq))

theorem enqList_congr (m : Map) (uq : Bool) (c1 c2 : Pos → Nat) (l : List Pos)
    (h : ∀ q ∈ l, c1 q = c2 q) : enqList m uq c1 l = enqList m uq c2 l := by
  induction l with
  | nil => rfl
  | cons q r ih =>
    unfold enqList
    rw [h q (List.mem_cons_self q r),
      ih (fun q hq => h q (List.mem_cons_of_mem _ hq))]

theorem enqList_cons (m : Map) (uq : Bool) (costs : Pos → Nat) (q : Pos)
    (r : List Pos) :
    enqList m uq costs (q :: r) =
      if uq ∧ (q.x < m.width ∧ q.y < m.height) ∧ costs q = COST_UNDEF
      then q :: enqList m uq costs r else enqList m uq costs r := rfl

/-- The full characterisation of the neighbour loop of compute_cell_cost over
any duplicate-free visit list: the final running minimum is the minimum of the
original costs of the bounds-valid members, the cost field gets the pending
sentinel exactly at the bounds-valid members whose cost was COST_UNDEF (queue
present), and exactly those members are appended to the queue, in order. -/
theorem ccFold_spec (m : Map) (uq : Bool) (l : List Pos) :
    ∀ s : ScanState, s.costMin ≤ COST_UNDEF → l.Nodup →
      (l.foldl (ccVisit m uq) s).costMin = minFold m s.costs l s.costMin
      ∧ (l.foldl (ccVisit m uq) s).costs = (fun q =>
          if uq ∧ (q.x < m.width ∧ q.y < m.height) ∧ q ∈ l ∧ s.costs q = COST_UNDEF
          then COST_UNDEF - 1 else s.costs q)
      ∧ (l.foldl (ccVisit m uq) s).enq = s.enq ++ enqList m uq s.costs l := by
  induction l with
  | nil =>
    intro s hle _
    refine ⟨rfl, ?_, by simp [enqList]⟩
    funext q; simp
  | cons np r ih =>
    intro s hle hnd
    have hndr : r.Nodup := (List.nodup_cons.mp hnd).2
    have hnpr : np ∉ r := (List.nodup_cons.mp hnd).1
    have hle2 : (ccVisit m uq s np).costMin ≤ COST_UNDEF :=
      ccVisit_costMin_le m uq s np hle
    obtain ⟨ihMin, ihCosts, ihEnq⟩ := ih (ccVisit m uq s np) hle2 hndr
    have hAgree : ∀ q ∈ r, (ccVisit m uq s np).costs q = s.costs q := by
      intro q hq
      rw [ccVisit_costs m uq s np hle]
      split
      · rename_i hcond
        exact updF_other _ _ _ _ (fun he => hnpr (he ▸ hq))
      · rfl
    simp only [List.foldl_cons]
    refine ⟨?_, ?_, ?_⟩
    · rw [ihMin, minFold_congr m _ s.costs r _ hAgree,
        ccVisit_costMin m uq s np hle]
      unfold minFold
      simp only [List.foldl_cons]
    · rw [ihCosts]
      funext q
      rw [ccVisit_costs m uq s np hle]
      by_cases hq : q = np
      · have hqr : q ∉ r := by rw [hq]; exact hnpr
        have hmem : q ∈ np :: r := by rw [hq]; exact List.mem_cons_self _ _
        by_cases hcond : uq = true ∧ (np.x < m.width ∧ np.y < m.height) ∧
            s.costs np = COST_UNDEF
        · rw [if_pos hcond]
          have hL : ¬ (uq = true ∧ (q.x < m.width ∧ q.y < m.height) ∧ q ∈ r ∧
              updF s.costs np (COST_UNDEF - 1) q = COST_UNDEF) :=
            fun hcon => hqr hcon.2.2.1
          rw [if_neg hL]
          have hR : uq = true ∧ (q.x < m.width ∧ q.y < m.height) ∧ q ∈ np :: r ∧
              s.costs q = COST_UNDEF := by
            refine ⟨hcond.1, ?_, hmem, ?_⟩
            · rw [hq]; exact hcond.2.1
            · rw [hq]; exact hcond.2.2
          rw [if_pos hR, hq, updF_self]
        · rw [if_neg hcond]
          have hL : ¬ (uq = true ∧ (q.x < m.width ∧ q.y < m.height) ∧ q ∈ r ∧
              s.costs q = COST_UNDEF) := fun hcon => hqr hcon.2.2.1
          rw [if_neg hL]
          have hR : ¬ (uq = true ∧ (q.x < m.width ∧ q.y < m.height) ∧ q ∈ np :: r ∧
              s.costs q = COST_UNDEF) := by
            intro hcon
            refine hcond ⟨hcon.1, ?_, ?_⟩
            · rw [← hq]; exact hcon.2.1
            · rw [← hq]; exact hcon.2.2.2
          rw [if_neg hR]
      · have hcv : (if uq = true ∧ (np.x < m.width ∧ np.y < m.height) ∧
            s.costs np = COST_UNDEF then updF s.costs np (COST_UNDEF - 1)
            else s.costs) q = s.costs q := by
          split
          · exact updF_other _ _ _ _ hq
          · rfl
        rw [hcv]
        have hmem : (q ∈ np :: r) ↔ (q ∈ r) := by
          simp [List.mem_cons, hq]
        by_cases hcond : uq = true ∧ (q.x < m.width ∧ q.y < m.height) ∧
            q ∈ r ∧ s.costs q = COST_UNDEF
        · rw [if_pos hcond,
            if_pos ⟨hcond.1, hcond.2.1, hmem.mpr hcond.2.2.1, hcond.2.2.2⟩]
        · rw [if_neg hcond,
            if_neg (fun hcon =>
              hcond ⟨hcon.1, hcon.2.1, hmem.mp hcon.2.2.1, hcon.2.2.2⟩)]
    · rw [ihEnq, enqList_congr m uq _ s.costs r hAgree,
        ccVisit_enq m uq s np hle]
      rw [enqList_cons]
      by_cases hcond : uq = true ∧ (np.x < m.width ∧ np.y < m.height) ∧
          s.costs np = COST_UNDEF
      · rw [if_pos hcond, if_pos hcond]
        simp
      · rw [if_neg hcond, if_neg hcond]

/-- The value component of compute_cell_cost, characterised against the
original cost field. -/
theorem computeCellCost_value (m : Map) (uq : Bool) (costs : Pos → Nat) (p : Pos)
    (hx : p.x < U32MOD) (hy : p.y < U32MOD) :
    (computeCellCost m uq costs p).value =
      if soilCost (m.soils p) ≠ 0
      then (minFold m costs (neighborList p) COST_UNDEF + soilCost (m.soils p)) % U32MOD
      else 0 := by
  have h := (ccFold_spec m uq (neighborList p) ⟨COST_UNDEF, costs, []⟩ (le_refl _)
    (neighborList_nodup p hx hy)).1
  show (if soilCost (m.soils p) ≠ 0
      then ((List.foldl (ccVisit m uq) ⟨COST_UNDEF, costs, []⟩ (neighborList p)).costMin
        + soilCost (m.soils p)) % U32MOD
      else 0) = _
  rw [h]

/-- The cost-field component of compute_cell_cost: pending marks appear exactly
at the bounds-valid neighbours whose cost was COST_UNDEF, when a queue is
present. -/
theorem computeCellCost_costs (m : Map) (uq : Bool) (costs : Pos → Nat) (p : Pos)
    (hx : p.x < U32MOD) (hy : p.y < U32MOD) :
    (computeCellCost m uq costs p).costs = (fun q =>
      if uq ∧ (q.x < m.width ∧ q.y < m.height) ∧ q ∈ neighborList p ∧
          costs q = COST_UNDEF
      then COST_UNDEF - 1 else costs q) := by
  have h := (ccFold_spec m uq (neighborList p) ⟨COST_UNDEF, costs, []⟩ (le_refl _)
    (neighborList_nodup p hx hy)).2.1
  show (List.foldl (ccVisit m uq) ⟨COST_UNDEF, costs, []⟩ (neighborList p)).costs = _
  rw [h]

/-- The enqueued-coordinates component of compute_cell_cost. -/
theorem computeCellCost_enq (m : Map) (uq : Bool) (costs : Pos → Nat) (p : Pos)
    (hx : p.x < U32MOD) (hy : p.y < U32MOD) :
    (computeCellCost m uq costs p).enq = enqList m uq costs (neighborList p) := by
  have h := (ccFold_spec m uq (neighborList p) ⟨COST_UNDEF, costs, []⟩ (le_refl _)
    (neighborList_nodup p hx hy)).2.2
  show (List.foldl (ccVisit m uq) ⟨COST_UNDEF, costs, []⟩ (neighborList p)).enq = _
  rw [h]
  simp

theorem ccVisit_false (m : Map) (s : ScanState) (np : Pos) :
    (ccVisit m false s np).costs = s.costs ∧ (ccVisit m false s np).enq = s.enq := by
  unfold ccVisit
  split
  · split
    · exact ⟨rfl, rfl⟩
    · split
      · rename_i hc; simp at hc
      · exact ⟨rfl, rfl⟩
  · exact ⟨rfl, rfl⟩

theorem ccFold_false (m : Map) (l : List Pos) :
    ∀ s : ScanState, (l.foldl (ccVisit m false) s).costs = s.costs ∧
      (l.foldl (ccVisit m false) s).enq = s.enq := by
  induction l with
  | nil => intro s; exact ⟨rfl, rfl⟩
  | cons np r ih =>
    intro s
    simp only [List.foldl_cons]
    obtain ⟨h1, h2⟩ := ih (ccVisit m false s np)
    obtain ⟨h3, h4⟩ := ccVisit_false m s np
    exact ⟨h1.trans h3, h2.trans h4⟩

/-- With a NULL queue, compute_cell_cost neither marks any cell nor enqueues
anything: the cost field comes back untouched. -/
theorem computeCellCost_noQueue (m : Map) (costs : Pos → Nat) (p : Pos) :
    (computeCellCost m false costs p).costs = costs ∧
    (computeCellCost m false costs p).enq = [] := by
  have h := ccFold_false m (neighborList p) ⟨COST_UNDEF, costs, []⟩
  exact ⟨h.1, h.2⟩

theorem minFold_mem_const (m : Map) (c : Pos → Nat) (l : List Pos) (v : Nat)
    (h : ∀ q ∈ l, q.x < m.width ∧ q.y < m.height → c q = v) :
    ∀ a : Nat, minFold m c l a =
      if ∃ q ∈ l, q.x < m.width ∧ q.y < m.height then min a v else a := by
  induction l with
  | nil => intro a; simp [minFold]
  | cons q r ih =>
    intro a
    unfold minFold
    simp only [List.foldl_cons]
    by_cases hv : q.x < m.width ∧ q.y < m.height
    · rw [if_pos hv, h q (List.mem_cons_self q r) hv]
      have := ih (fun q hq => h q (List.mem_cons_of_mem _ hq)) (min a v)
      unfold minFold at this
      rw [this]
      have hex : ∃ q2 ∈ q :: r, q2.x < m.width ∧ q2.y < m.height :=
        ⟨q, List.mem_cons_self q r, hv⟩
      rw [if_pos hex]
      split
      · rw [min_assoc, min_self]
      · rfl
    · rw [if_neg hv]
      have := ih (fun q hq => h q (List.mem_cons_of_mem _ hq)) a
      unfold minFold at this
      rw [this]
      have hiff : (∃ q2 ∈ q :: r, q2.x < m.width ∧ q2.y < m.height) ↔
          (∃ q2 ∈ r, q2.x < m.width ∧ q2.y < m.height) := by
        constructor
        · rintro ⟨q2, hq2, hvq2⟩
          rcases List.mem_cons.mp hq2 with he | hm
          · exact absurd (he ▸ hvq2) hv
          · exact ⟨q2, hm, hvq2⟩
        · rintro ⟨q2, hq2, hvq2⟩
          exact ⟨q2, List.mem_cons_of_mem _ hq2, hvq2⟩
      by_cases hex : ∃ q2 ∈ r, q2.x < m.width ∧ q2.y < m.height
      · rw [if_pos hex, if_pos (hiff.mpr hex)]
      · rw [if_neg hex, if_neg (fun hc => hex (hiff.mp hc))]

theorem soilCost_le (s : Soil) : soilCost s ≤ 10000 := by
  cases s <;> simp [soilCost]

theorem undef_add_mod (t : Nat) (h1 : 1 ≤ t) (h2 : t ≤ 10000) :
    (COST_UNDEF + t) % U32MOD = t - 1 := by
  have hM : U32MOD = 4294967296 := rfl
  have hU : COST_UNDEF = 4294967295 := rfl
  have he : COST_UNDEF + t = U32MOD + (t - 1) := by omega
  rw [he, Nat.add_mod_left, Nat.mod_eq_of_lt (by omega)]

theorem pending_add_mod (t : Nat) (h1 : 2 ≤ t) (h2 : t ≤ 10000) :
    (COST_UNDEF - 1 + t) % U32MOD = t - 2 := by
  have hM : U32MOD = 4294967296 := rfl
  have hU : COST_UNDEF = 4294967295 := rfl
  have he : COST_UNDEF - 1 + t = U32MOD + (t - 2) := by omega
  rw [he, Nat.add_mod_left, Nat.mod_eq_of_lt (by omega)]

/-! Claim C2. -/

/-- C2, counterexample.  At a PLAIN cell of a 1-by-1 grid every bounds-valid
neighbour (there is none) trivially has undefined cost, the terrain cost is 1,
and compute_cell_cost returns (COST_UNDEF plus 1) mod two-to-32, which is 0:
far from being a very large number strictly greater than any real path cost,
the result is smaller than the cost 1 of a single plain step. -/
theorem C2_counterexample :
    (computeCellCost noOriginMap true initialCosts ⟨0, 0⟩).value = 0 ∧
    soilCost (noOriginMap.soils ⟨0, 0⟩) ≠ 0 ∧
    (∀ q ∈ neighborList ⟨0, 0⟩,
      q.x < noOriginMap.width ∧ q.y < noOriginMap.height →
        initialCosts q = COST_UNDEF) ∧
    (computeCellCost noOriginMap true initialCosts ⟨0, 0⟩).value < 1 := by
  refine ⟨by decide, by decide, by decide, by decide⟩

/-- C2, amended: in compute_cell_cost, if no bounds-valid neighbour has a
defined cost (cost_min stays at 0xFFFFFFFF) and the terrain cost t is nonzero,
the returned cost equals (undefined plus t) reduced mod two-to-32, which wraps
around to the small value t minus 1 (at most 9999) rather than a very large
number. -/
theorem C2_amended (m : Map) (uq : Bool) (costs : Pos → Nat) (p : Pos)
    (hx : p.x < U32MOD) (hy : p.y < U32MOD)
    (hundef : ∀ q ∈ neighborList p,
      q.x < m.width ∧ q.y < m.height → costs q = COST_UNDEF)
    (ht : soilCost (m.soils p) ≠ 0) :
    (computeCellCost m uq costs p).value =
        (COST_UNDEF + soilCost (m.soils p)) % U32MOD
    ∧ (computeCellCost m uq costs p).value = soilCost (m.soils p) - 1
    ∧ (computeCellCost m uq costs p).value < 10000 := by
  have hmin : minFold m costs (neighborList p) COST_UNDEF = COST_UNDEF := by
    rw [minFold_mem_const m costs _ COST_UNDEF hundef COST_UNDEF]
    split
    · exact min_self _
    · rfl
  have hv := computeCellCost_value m uq costs p hx hy
  rw [hmin, if_pos ht] at hv
  have h1 : 1 ≤ soilCost (m.soils p) := Nat.one_le_iff_ne_zero.mpr ht
  have h2 := soilCost_le (m.soils p)
  refine ⟨hv, ?_, ?_⟩
  · rw [hv, undef_add_mod _ h1 h2]
  · rw [hv, undef_add_mod _ h1 h2]
    omega

/-- C2, witness at a concrete input: the 1-by-1 PLAIN grid with all costs
undefined. -/
theorem C2_witness :
    (computeCellCost noOriginMap true initialCosts ⟨0, 0⟩).value =
      (COST_UNDEF + soilCost (noOriginMap.soils ⟨0, 0⟩)) % U32MOD ∧
    (computeCellCost noOriginMap true initialCosts ⟨0, 0⟩).value =
      soilCost (noOriginMap.soils ⟨0, 0⟩) - 1 :=
  ⟨(C2_amended noOriginMap true initialCosts ⟨0, 0⟩ (by decide) (by decide)
      (by decide) (by decide)).1,
   (C2_amended noOriginMap true initialCosts ⟨0, 0⟩ (by decide) (by decide)
      (by decide) (by decide)).2.1⟩

/-! Claim C10. -/

/-- C10: a neighbour carrying the pending sentinel COST_UNDEF minus 1
participates in the cost_min minimum like a real cost; if every bounds-valid
neighbour is pending (and one exists) and the terrain cost t is nonzero, the
result is (0xFFFFFFFE plus t) mod two-to-32: COST_UNDEF itself for t equal 1,
and the small value t minus 2 for t at least 2. -/
theorem C10_pending_min (m : Map) (uq : Bool) (costs : Pos → Nat) (p : Pos)
    (hx : p.x < U32MOD) (hy : p.y < U32MOD)
    (hpend : ∀ q ∈ neighborList p,
      q.x < m.width ∧ q.y < m.height → costs q = COST_UNDEF - 1)
    (hex : ∃ q ∈ neighborList p, q.x < m.width ∧ q.y < m.height)
    (ht : soilCost (m.soils p) ≠ 0) :
    (computeCellCost m uq costs p).value =
        (COST_UNDEF - 1 + soilCost (m.soils p)) % U32MOD
    ∧ (soilCost (m.soils p) = 1 →
        (computeCellCost m uq costs p).value = COST_UNDEF)
    ∧ (2 ≤ soilCost (m.soils p) →
        (computeCellCost m uq costs p).value = soilCost (m.soils p) - 2) := by
  have hmin : minFold m costs (neighborList p) COST_UNDEF = COST_UNDEF - 1 := by
    rw [minFold_mem_const m costs _ (COST_UNDEF - 1) hpend COST_UNDEF,
      if_pos hex]
    have hU : COST_UNDEF = 4294967295 := rfl
    omega
  have hv := computeCellCost_value m uq costs p hx hy
  rw [hmin, if_pos ht] at hv
  refine ⟨hv, ?_, ?_⟩
  · intro h1
    rw [hv, h1]
    decide
  · intro h2
    rw [hv, pending_add_mod _ h2 (soilCost_le _)]

/-- C10, witness: the PLAIN cell at x 3 of the two-origin row map, with every
cell pending: the computed value is COST_UNDEF itself. -/
theorem C10_witness :
    (computeCellCost twoOriginMap true (fun _ => COST_UNDEF - 1) ⟨3, 0⟩).value =
      COST_UNDEF :=
  (C10_pending_min twoOriginMap true (fun _ => COST_UNDEF - 1) ⟨3, 0⟩
      (by decide) (by decide) (by decide)
      ⟨⟨2, 0⟩, by decide, by decide⟩ (by decide)).2.1 (by decide)

theorem minFold_congr_valid (m : Map) (c1 c2 : Pos → Nat) (l : List Pos)
    (h : ∀ q : Pos, q.x < m.width ∧ q.y < m.height → c1 q = c2 q) :
    ∀ a : Nat, minFold m c1 l a = minFold m c2 l a := by
  induction l with
  | nil => intro a; rfl
  | cons q r ih =>
    intro a
    unfold minFold
    simp only [List.foldl_cons]
    by_cases hv : q.x < m.width ∧ q.y < m.height
    · rw [if_pos hv, if_pos hv, h q hv]
      exact ih (min a (c2 q))
    · rw [if_neg hv, if_neg hv]
      exact ih a

theorem enqList_congr_valid (m : Map) (uq : Bool) (c1 c2 : Pos → Nat)
    (l : List Pos)
    (h : ∀ q : Pos, q.x < m.width ∧ q.y < m.height → c1 q = c2 q) :
    enqList m uq c1 l = enqList m uq c2 l := by
  induction l with
  | nil => rfl
  | cons q r ih =>
    rw [enqList_cons, enqList_cons]
    by_cases hv : q.x < m.width ∧ q.y < m.height
    · rw [h q hv]
      by_cases hc : uq = true ∧ (q.x < m.width ∧ q.y < m.height) ∧
          c2 q = COST_UNDEF
      · rw [if_pos hc, if_pos hc, ih]
      · rw [if_neg hc, if_neg hc, ih]
    · have h1 : ¬ (uq = true ∧ (q.x < m.width ∧ q.y < m.height) ∧
          c1 q = COST_UNDEF) := fun hc => hv hc.2.1
      have h2 : ¬ (uq = true ∧ (q.x < m.width ∧ q.y < m.height) ∧
          c2 q = COST_UNDEF) := fun hc => hv hc.2.1
      rw [if_neg h1, if_neg h2, ih]

/-! Claim C9. -/

/-- C9: for every in-bounds position, compute_cell_cost touches only in-bounds
cells.  Its value and its enqueue list depend only on the restriction of the
cost field to bounds-valid positions; it writes no cell outside the bounds;
and the neighbour coordinates that underflow past zero (wrapping to
0xFFFFFFFF) are rejected by the POSITION_IS_VALID bounds check. -/
theorem C9_bounds_safety (m : Map) (uq : Bool) (c1 c2 : Pos → Nat) (p : Pos)
    (hp : posValid p m.width m.height)
    (hw : m.width < U32MOD) (hh : m.height < U32MOD)
    (hagree : ∀ r : Pos, posValid r m.width m.height → c1 r = c2 r) :
    ((computeCellCost m uq c1 p).value = (computeCellCost m uq c2 p).value
      ∧ (computeCellCost m uq c1 p).enq = (computeCellCost m uq c2 p).enq)
    ∧ (∀ q : Pos, ¬ posValid q m.width m.height →
        (computeCellCost m uq c1 p).costs q = c1 q)
    ∧ (p.x = 0 →
        ¬ posValid ⟨(p.x + (U32MOD - 1)) % U32MOD, p.y⟩ m.width m.height)
    ∧ (p.y = 0 →
        ¬ posValid ⟨p.x, (p.y + (U32MOD - 1)) % U32MOD⟩ m.width m.height) := by
  have hx : p.x < U32MOD := lt_trans hp.1 hw
  have hy : p.y < U32MOD := lt_trans hp.2 hh
  have hagr : ∀ q ∈ neighborList p, q.x < m.width ∧ q.y < m.height →
      c1 q = c2 q := fun q _ hq => hagree q hq
  have hag2 : ∀ q : Pos, q.x < m.width ∧ q.y < m.height → c1 q = c2 q :=
    fun q hq => hagree q ⟨hq.1, hq.2⟩
  refine ⟨⟨?_, ?_⟩, ?_, ?_, ?_⟩
  · rw [computeCellCost_value m uq c1 p hx hy,
      computeCellCost_value m uq c2 p hx hy,
      minFold_congr_valid m c1 c2 (neighborList p) hag2 COST_UNDEF]
  · rw [computeCellCost_enq m uq c1 p hx hy,
      computeCellCost_enq m uq c2 p hx hy,
      enqList_congr_valid m uq c1 c2 (neighborList p) hag2]
  · intro q hq
    rw [computeCellCost_costs m uq c1 p hx hy]
    have hnc : ¬ (uq = true ∧ (q.x < m.width ∧ q.y < m.height) ∧
        q ∈ neighborList p ∧ c1 q = COST_UNDEF) := fun hc => hq hc.2.1
    exact if_neg hnc
  · intro h0
    rw [wrapDec p.x hx, h0, if_pos rfl]
    intro hcon
    have hlt : U32MOD - 1 < m.width := hcon.1
    have hM : U32MOD = 4294967296 := rfl
    omega
  · intro h0
    rw [wrapDec p.y hy, h0, if_pos rfl]
    intro hcon
    have hlt : U32MOD - 1 < m.height := hcon.2
    have hM : U32MOD = 4294967296 := rfl
    omega

/-- C9, witness at a concrete input: position (0, 0) of the two-origin row
map, two cost fields that agree on the four in-bounds cells. -/
theorem C9_witness :
    (computeCellCost twoOriginMap true initialCosts ⟨0, 0⟩).value =
      (computeCellCost twoOriginMap true
        (fun q => if q.x < 4 ∧ q.y < 1 then COST_UNDEF else 7) ⟨0, 0⟩).value ∧
    ¬ posValid ⟨(0 + (U32MOD - 1)) % U32MOD, 0⟩ twoOriginMap.width
      twoOriginMap.height :=
  ⟨(C9_bounds_safety twoOriginMap true initialCosts
      (fun q => if q.x < 4 ∧ q.y < 1 then COST_UNDEF else 7) ⟨0, 0⟩
      (by decide) (by decide) (by decide)
      (fun r hr => by
        simp only [initialCosts]
        rw [if_pos ⟨hr.1, hr.2⟩])).1.1,
   (C9_bounds_safety twoOriginMap true initialCosts
      (fun q => if q.x < 4 ∧ q.y < 1 then COST_UNDEF else 7) ⟨0, 0⟩
      (by decide) (by decide) (by decide)
      (fun r hr => by
        simp only [initialCosts]
        rw [if_pos ⟨hr.1, hr.2⟩])).2.2.1 rfl⟩

/-! The repair pass (claim C6). -/

theorem mem_rowMajor (m : Map) (p : Pos) :
    p ∈ rowMajor m ↔ p.x < m.width ∧ p.y < m.height := by
  unfold rowMajor
  simp only [List.mem_flatMap, List.mem_map, List.mem_range]
  constructor
  · rintro ⟨y, hy, x, hx, rfl⟩
    exact ⟨hx, hy⟩
  · rintro ⟨hx, hy⟩
    exact ⟨p.y, hy, p.x, hx, rfl⟩

theorem rowMajor_nodup (m : Map) : (rowMajor m).Nodup := by
  unfold rowMajor
  rw [List.nodup_flatMap]
  constructor
  · intro y _
    exact List.Nodup.map (fun a b hab => by
      have : a = (Pos.mk a y).x := rfl
      rw [this, hab]) (List.nodup_range _)
  · rw [List.pairwise_iff_forall_sublist]
    intro y1 y2 hsub
    have hne : y1 ≠ y2 := by
      intro he
      subst he
      exact absurd (List.Sublist.nodup hsub (List.nodup_range _))
        (by simp)
    intro q hq1 hq2
    simp only [Function.onFun, List.mem_map, List.mem_range] at hq1 hq2
    obtain ⟨x1, _, he1⟩ := hq1
    obtain ⟨x2, _, he2⟩ := hq2
    rw [← he1] at he2
    exact hne (congrArg Pos.y he2).symm

theorem repair_fold_frame (m : Map) (l : List Pos) :
    ∀ (cs : Pos → Nat) (q : Pos), q ∉ l →
      (l.foldl (repairCell m) cs) q = cs q := by
  induction l with
  | nil => intro cs q _; rfl
  | cons p r ih =>
    intro cs q hq
    have hqp : q ≠ p := fun he => hq (he ▸ List.mem_cons_self p r)
    have hqr : q ∉ r := fun hm => hq (List.mem_cons_of_mem _ hm)
    simp only [List.foldl_cons]
    rw [ih (repairCell m cs p) q hqr]
    unfold repairCell
    split
    · rw [(computeCellCost_noQueue m cs p).1, updF_other _ _ _ _ hqp]
    · rfl

/-- The combined induction behind the repair-pass characterisation: over a
duplicate-free sweep list, the code sweep (condition read from the evolving
field) equals the spec sweep (condition read from the field as of sweep
start), and cells failing the start-of-sweep condition keep their value. -/
theorem repair_fold_spec (m : Map) (l : List Pos) :
    ∀ (cs0 cs : Pos → Nat), (∀ q ∈ l, cs q = cs0 q) → l.Nodup →
      (l.foldl (repairCell m) cs =
        l.foldl (fun f p =>
          if m.soils p ≠ Soil.CREVASSE ∧ cs0 p > 10000 then
            updF f p (computeCellCost m false f p).value
          else f) cs)
      ∧ (∀ q ∈ l, ¬ (m.soils q ≠ Soil.CREVASSE ∧ cs0 q > 10000) →
          (l.foldl (repairCell m) cs) q = cs q) := by
  induction l with
  | nil => intro cs0 cs _ _; exact ⟨rfl, fun q hq => absurd hq (by simp)⟩
  | cons p r ih =>
    intro cs0 cs hag hnd
    have hndr : r.Nodup := (List.nodup_cons.mp hnd).2
    have hpr : p ∉ r := (List.nodup_cons.mp hnd).1
    have hcondeq : (m.soils p ≠ Soil.CREVASSE ∧ cs p > 10000) ↔
        (m.soils p ≠ Soil.CREVASSE ∧ cs0 p > 10000) := by
      rw [hag p (List.mem_cons_self p r)]
    have hs1 : ∀ q ∈ r, repairCell m cs p q = cs0 q := by
      intro q hq
      have hqp : q ≠ p := fun he => hpr (he ▸ hq)
      unfold repairCell
      split
      · rw [(computeCellCost_noQueue m cs p).1, updF_other _ _ _ _ hqp]
        exact hag q (List.mem_cons_of_mem _ hq)
      · exact hag q (List.mem_cons_of_mem _ hq)
    obtain ⟨ihA, ihB⟩ := ih cs0 (repairCell m cs p) hs1 hndr
    constructor
    · simp only [List.foldl_cons]
      rw [ihA]
      have : repairCell m cs p =
          (if m.soils p ≠ Soil.CREVASSE ∧ cs0 p > 10000 then
            updF cs p (computeCellCost m false cs p).value
          else cs) := by
        unfold repairCell
        by_cases hc : m.soils p ≠ Soil.CREVASSE ∧ cs p > 10000
        · rw [if_pos hc, if_pos (hcondeq.mp hc),
            (computeCellCost_noQueue m cs p).1]
        · rw [if_neg hc, if_neg (fun h2 => hc (hcondeq.mpr h2))]
      rw [this]
    · intro q hq hnc
      simp only [List.foldl_cons]
      rcases List.mem_cons.mp hq with he | hm
      · subst he
        have hs : repairCell m cs q = cs := by
          unfold repairCell
          rw [if_neg (fun hc => hnc (hcondeq.mp hc))]
        rw [hs]
        exact repair_fold_frame m r cs q hpr
      · rw [ihB q hm hnc]
        have hqp : q ≠ p := fun he => hpr (he ▸ hm)
        unfold repairCell
        split
        · rw [(computeCellCost_noQueue m cs p).1, updF_other _ _ _ _ hqp]
        · rfl

/-- C6: the repair pass remove_false_costs is a single row-major sweep that
recomputes, by the single-cell formula with a NULL queue (so nothing is
enqueued and no neighbour is marked), exactly those cells whose terrain is not
CREVASSE and whose post-propagation cost exceeds 10000, and leaves every other
cell's cost unchanged.  The first conjunct shows the evolving-field condition
of the code coincides with the claim's condition read on the field as the
sweep began; the second is the frame property; the third is the no-enqueue,
no-mark property of the NULL-queue recompute. -/
theorem C6_repair_pass (m : Map) (cs : Pos → Nat) :
    removeFalseCosts m cs = repairSweepSpec m cs
    ∧ (∀ p : Pos, ¬ (m.soils p ≠ Soil.CREVASSE ∧ cs p > 10000) →
        removeFalseCosts m cs p = cs p)
    ∧ (∀ (f : Pos → Nat) (p : Pos),
        (computeCellCost m false f p).enq = [] ∧
        (computeCellCost m false f p).costs = f) := by
  obtain ⟨hA, hB⟩ := repair_fold_spec m (rowMajor m) cs cs (fun _ _ => rfl)
    (rowMajor_nodup m)
  refine ⟨hA, ?_, ?_⟩
  · intro p hnc
    by_cases hp : p ∈ rowMajor m
    · exact hB p hp hnc
    · exact repair_fold_frame m (rowMajor m) cs p hp
  · intro f p
    exact ⟨(computeCellCost_noQueue m f p).2, (computeCellCost_noQueue m f p).1⟩

/-! The base-station scan (get_base_station_pos). -/

theorem scanRowFrom_some (m : Map) (y : Nat) :
    ∀ k x x2 : Nat, scanRowFrom m y k x = some x2 →
      x ≤ x2 ∧ x2 < x + k ∧ m.soils ⟨x2, y⟩ = Soil.BASE_STATION ∧
      ∀ x3, x ≤ x3 → x3 < x2 → m.soils ⟨x3, y⟩ ≠ Soil.BASE_STATION := by
  intro k
  induction k with
  | zero => intro x x2 h; simp [scanRowFrom] at h
  | succ k ih =>
    intro x x2 h
    unfold scanRowFrom at h
    by_cases hb : m.soils ⟨x, y⟩ = Soil.BASE_STATION
    · rw [if_pos hb] at h
      injection h with he
      subst he
      exact ⟨le_refl x, by omega, hb, fun x3 h1 h2 => absurd h1 (by omega)⟩
    · rw [if_neg hb] at h
      obtain ⟨h1, h2, h3, h4⟩ := ih (x + 1) x2 h
      refine ⟨by omega, by omega, h3, ?_⟩
      intro x3 hle hlt
      rcases Nat.eq_or_lt_of_le hle with he | hgt
      · rw [← he]; exact hb
      · exact h4 x3 hgt hlt

theorem scanRowFrom_none (m : Map) (y : Nat) :
    ∀ k x : Nat, scanRowFrom m y k x = none →
      ∀ x3, x ≤ x3 → x3 < x + k → m.soils ⟨x3, y⟩ ≠ Soil.BASE_STATION := by
  intro k
  induction k with
  | zero => intro x _ x3 h1 h2; omega
  | succ k ih =>
    intro x h x3 h1 h2
    unfold scanRowFrom at h
    by_cases hb : m.soils ⟨x, y⟩ = Soil.BASE_STATION
    · rw [if_pos hb] at h; exact absurd h (by simp)
    · rw [if_neg hb] at h
      rcases Nat.eq_or_lt_of_le h1 with he | hgt
      · rw [← he]; exact hb
      · exact ih (x + 1) h x3 hgt (by omega)

theorem scanRowsFrom_some (m : Map) :
    ∀ (k y : Nat) (p : Pos), scanRowsFrom m k y = some p →
      y ≤ p.y ∧ p.y < y + k ∧ scanRowFrom m p.y m.width 0 = some p.x ∧
      ∀ y3, y ≤ y3 → y3 < p.y → scanRowFrom m y3 m.width 0 = none := by
  intro k
  induction k with
  | zero => intro y p h; simp [scanRowsFrom] at h
  | succ k ih =>
    intro y p h
    unfold scanRowsFrom at h
    rcases hrow : scanRowFrom m y m.width 0 with _ | x
    · rw [hrow] at h
      obtain ⟨h1, h2, h3, h4⟩ := ih (y + 1) p h
      refine ⟨by omega, by omega, h3, ?_⟩
      intro y3 hle hlt
      rcases Nat.eq_or_lt_of_le hle with he | hgt
      · rw [← he]; exact hrow
      · exact h4 y3 hgt hlt
    · rw [hrow] at h
      injection h with he
      subst he
      refine ⟨le_refl _, ?_, hrow, ?_⟩
      · show y < y + (k + 1)
        omega
      · intro y3 h1 h2
        have h2y : y3 < y := h2
        exact absurd h2y (by omega)

theorem scanRowsFrom_none (m : Map) :
    ∀ k y : Nat, scanRowsFrom m k y = none →
      ∀ y3, y ≤ y3 → y3 < y + k → scanRowFrom m y3 m.width 0 = none := by
  intro k
  induction k with
  | zero => intro y _ y3 h1 h2; omega
  | succ k ih =>
    intro y h y3 h1 h2
    unfold scanRowsFrom at h
    rcases hrow : scanRowFrom m y m.width 0 with _ | x
    · rw [hrow] at h
      rcases Nat.eq_or_lt_of_le h1 with he | hgt
      · rw [← he]; exact hrow
      · exact ih (y + 1) h y3 hgt (by omega)
    · rw [hrow] at h; exact absurd h (by simp)

/-- get_base_station_pos, when the map holds a base station at all, returns an
in-bounds BASE_STATION cell that is first in row-major scan order (y outer,
x inner). -/
theorem getBaseStationPos_spec (m : Map)
    (hb : ∃ p : Pos, posValid p m.width m.height ∧
      m.soils p = Soil.BASE_STATION) :
    posValid (getBaseStationPos m) m.width m.height ∧
    m.soils (getBaseStationPos m) = Soil.BASE_STATION ∧
    ∀ p : Pos, posValid p m.width m.height → m.soils p = Soil.BASE_STATION →
      (getBaseStationPos m).y < p.y ∨
      ((getBaseStationPos m).y = p.y ∧ (getBaseStationPos m).x ≤ p.x) := by
  obtain ⟨p0, hp0v, hp0b⟩ := hb
  rcases hscan : scanRowsFrom m m.height 0 with _ | b
  · exfalso
    have hy2 : p0.y < m.height := hp0v.2
    have hx2 : p0.x < m.width := hp0v.1
    have hrow := scanRowsFrom_none m m.height 0 hscan p0.y (Nat.zero_le _)
      (by omega)
    exact scanRowFrom_none m p0.y m.width 0 hrow p0.x (Nat.zero_le _)
      (by omega) hp0b
  · have hgb : getBaseStationPos m = b := by
      unfold getBaseStationPos
      rw [hscan]
    obtain ⟨_, hby, hrow, hprev⟩ := scanRowsFrom_some m m.height 0 b hscan
    obtain ⟨_, hbx, hbase, hprevx⟩ := scanRowFrom_some m b.y m.width 0 b.x hrow
    rw [hgb]
    refine ⟨⟨by omega, by omega⟩, hbase, ?_⟩
    intro p hpv hpb
    by_cases hy : b.y < p.y
    · exact Or.inl hy
    · right
      by_cases hye : b.y = p.y
      · refine ⟨hye, ?_⟩
        by_contra hx
        have hpx : p.x < b.x := by omega
        have := hprevx p.x (Nat.zero_le _) hpx
        rw [hye] at this
        exact this hpb
      · exfalso
        have hplt : p.y < b.y := by omega
        have hnone := hprev p.y (Nat.zero_le _) hplt
        exact scanRowFrom_none m p.y m.width 0 hnone p.x (Nat.zero_le _)
          (by have := hpv.1; omega) hpb

/-- When a base station exists and the dimensions fit in 32 bits, compute_costs
does not abort: the run is the iterated while loop from the initial state. -/
theorem computeCostsRun_eq_stepN (m : Map) (fuel : Nat)
    (hw : m.width < U32MOD) (hh : m.height < U32MOD)
    (hb : ∃ p : Pos, posValid p m.width m.height ∧
      m.soils p = Soil.BASE_STATION) :
    computeCostsRun m fuel = stepN m fuel (initState m) := by
  obtain ⟨hv, _, _⟩ := getBaseStationPos_spec m hb
  unfold computeCostsRun
  rw [if_neg]
  intro hcon
  have hM : U32MOD = 4294967296 := rfl
  have hU : COST_UNDEF = 4294967295 := rfl
  have h1 := hv.1
  have h2 := hv.2
  rcases hcon with hcx | hcy
  · omega
  · omega

/-! The while loop of compute_costs: basic step lemmas and the queue
invariant. -/

theorem stepN_succ_back (m : Map) :
    ∀ (n : Nat) (s : RunState), stepN m (n + 1) s = step m (stepN m n s) := by
  intro n
  induction n with
  | zero => intro s; rfl
  | succ n ih =>
    intro s
    show stepN m (n + 1) (step m s) = _
    rw [ih (step m s)]
    rfl

theorem step_empty (m : Map) (s : RunState) (h : s.queue = []) :
    step m s = s := by
  unfold step
  rw [h]

theorem stepN_empty_stable (m : Map) (k : Nat) (s : RunState)
    (h : (stepN m k s).queue = []) :
    ∀ j, stepN m (k + j) s = stepN m k s := by
  intro j
  induction j with
  | zero => rfl
  | succ j ih =>
    have he : k + (j + 1) = (k + j) + 1 := by omega
    rw [he, stepN_succ_back m (k + j) s, ih, step_empty m (stepN m k s) h]

theorem step_cons (m : Map) (s : RunState) (c : Pos) (rest : List Pos)
    (h : s.queue = c :: rest) :
    step m s =
      ⟨updF (computeCellCost m true s.costs c).costs c
          (computeCellCost m true s.costs c).value,
        rest ++ (computeCellCost m true s.costs c).enq,
        fun q => s.enqCount q + (computeCellCost m true s.costs c).enq.count q⟩ := by
  unfold step
  rw [h]

theorem enqList_mem (m : Map) (uq : Bool) (costs : Pos → Nat) :
    ∀ (l : List Pos) (q : Pos), q ∈ enqList m uq costs l →
      q ∈ l ∧ (q.x < m.width ∧ q.y < m.height) ∧ costs q = COST_UNDEF := by
  intro l
  induction l with
  | nil => intro q h; simp [enqList] at h
  | cons p r ih =>
    intro q h
    rw [enqList_cons] at h
    split at h
    · rename_i hc
      rcases List.mem_cons.mp h with he | hm
      · subst he
        exact ⟨List.mem_cons_self _ _, hc.2.1, hc.2.2⟩
      · obtain ⟨h1, h2, h3⟩ := ih q hm
        exact ⟨List.mem_cons_of_mem _ h1, h2, h3⟩
    · obtain ⟨h1, h2, h3⟩ := ih q h
      exact ⟨List.mem_cons_of_mem _ h1, h2, h3⟩

theorem enqList_nodup (m : Map) (uq : Bool) (costs : Pos → Nat) :
    ∀ l : List Pos, l.Nodup → (enqList m uq costs l).Nodup := by
  intro l
  induction l with
  | nil => intro _; simp [enqList]
  | cons p r ih =>
    intro hnd
    rw [enqList_cons]
    have hndr := (List.nodup_cons.mp hnd).2
    have hpr := (List.nodup_cons.mp hnd).1
    split
    · rw [List.nodup_cons]
      exact ⟨fun hm => hpr (enqList_mem m uq costs r p hm).1, ih hndr⟩
    · exact ih hndr

/-- One loop iteration preserves the queue invariant. -/
theorem step_basicInv (m : Map) (s : RunState)
    (hw : m.width < U32MOD) (hh : m.height < U32MOD)
    (h : BasicInv m s) : BasicInv m (step m s) := by
  obtain ⟨hnd, hval, hpend⟩ := h
  rcases hq : s.queue with _ | ⟨c, rest⟩
  · rw [step_empty m s hq]
    exact ⟨hnd, hval, hpend⟩
  · have hcm : c ∈ s.queue := by rw [hq]; exact List.mem_cons_self _ _
    have hcv := hval c hcm
    have hcx : c.x < U32MOD := lt_trans hcv.1 hw
    have hcy : c.y < U32MOD := lt_trans hcv.2 hh
    have hrest_nd : rest.Nodup := by
      rw [hq] at hnd; exact (List.nodup_cons.mp hnd).2
    have hcrest : c ∉ rest := by
      rw [hq] at hnd; exact (List.nodup_cons.mp hnd).1
    have hrestpend : ∀ q ∈ rest, s.costs q = COST_UNDEF - 1 := by
      intro q hqr
      have hin : q ∈ s.queue := by rw [hq]; exact List.mem_cons_of_mem _ hqr
      rcases hpend q hin with h1 | ⟨_, h2⟩
      · exact h1
      · exfalso
        rw [hq] at h2
        injection h2 with he1 he2
        rw [he2] at hqr
        exact List.not_mem_nil q hqr
    have henq := computeCellCost_enq m true s.costs c hcx hcy
    have hcosts := computeCellCost_costs m true s.costs c hcx hcy
    rw [step_cons m s c rest hq]
    have henq_mem : ∀ q ∈ (computeCellCost m true s.costs c).enq,
        q ∈ neighborList c ∧ (q.x < m.width ∧ q.y < m.height) ∧
        s.costs q = COST_UNDEF := by
      intro q hqe
      rw [henq] at hqe
      exact enqList_mem m true s.costs _ q hqe
    have henq_nd : (computeCellCost m true s.costs c).enq.Nodup := by
      rw [henq]
      exact enqList_nodup m true s.costs _ (neighborList_nodup c hcx hcy)
    have hdisj : rest.Disjoint (computeCellCost m true s.costs c).enq := by
      intro q hqr hqe
      have h1 := hrestpend q hqr
      have h2 := (henq_mem q hqe).2.2
      rw [h1] at h2
      have hU : COST_UNDEF = 4294967295 := rfl
      omega
    have hcne : ∀ q ∈ rest ++ (computeCellCost m true s.costs c).enq, q ≠ c := by
      intro q hqm
      rcases List.mem_append.mp hqm with hr | he
      · intro hec; rw [hec] at hr; exact hcrest hr
      · intro hec
        rw [hec] at he
        exact not_mem_neighborList_self c hcx hcy (henq_mem c he).1
    refine ⟨?_, ?_, ?_⟩
    · exact List.Nodup.append hrest_nd henq_nd hdisj
    · intro q hqm
      rcases List.mem_append.mp hqm with hr | he
      · exact hval q (by rw [hq]; exact List.mem_cons_of_mem _ hr)
      · exact ⟨(henq_mem q he).2.1.1, (henq_mem q he).2.1.2⟩
    · intro q hqm
      left
      have hqc : q ≠ c := hcne q hqm
      show updF (computeCellCost m true s.costs c).costs c
        (computeCellCost m true s.costs c).value q = COST_UNDEF - 1
      rw [updF_other _ _ _ _ hqc, hcosts]
      rcases List.mem_append.mp hqm with hr | he
      · have h1 := hrestpend q hr
        have hnc : ¬ (true = true ∧ (q.x < m.width ∧ q.y < m.height) ∧
            q ∈ neighborList c ∧ s.costs q = COST_UNDEF) := by
          intro hcon
          have h2 := hcon.2.2.2
          rw [h1] at h2
          have hU : COST_UNDEF = 4294967295 := rfl
          omega
        exact (if_neg hnc).trans h1
      · obtain ⟨hnl, hvq, hcq⟩ := henq_mem q he
        exact if_pos ⟨rfl, hvq, hnl, hcq⟩

theorem basicInv_init (m : Map)
    (hb : ∃ p : Pos, posValid p m.width m.height ∧
      m.soils p = Soil.BASE_STATION) : BasicInv m (initState m) := by
  obtain ⟨hv, _, _⟩ := getBaseStationPos_spec m hb
  have hq : (initState m).queue = [getBaseStationPos m] := rfl
  refine ⟨by rw [hq]; exact List.nodup_singleton _, ?_, ?_⟩
  · intro c hc
    rw [hq, List.mem_singleton] at hc
    rw [hc]
    exact hv
  · intro c hc
    rw [hq, List.mem_singleton] at hc
    rw [hc]
    exact Or.inr ⟨rfl, hq⟩

theorem basicInv_stepN (m : Map) (k : Nat)
    (hw : m.width < U32MOD) (hh : m.height < U32MOD)
    (hb : ∃ p : Pos, posValid p m.width m.height ∧
      m.soils p = Soil.BASE_STATION) :
    BasicInv m (stepN m k (initState m)) := by
  induction k with
  | zero => exact basicInv_init m hb
  | succ k ih =>
    rw [stepN_succ_back]
    exact step_basicInv m _ hw hh ih

theorem rowIndex_inj (w x1 y1 x2 y2 : Nat) (h1 : x1 < w) (h2 : x2 < w)
    (he : y1 * w + x1 = y2 * w + x2) : x1 = x2 ∧ y1 = y2 := by
  have hy : y1 = y2 := by
    rcases Nat.lt_trichotomy y1 y2 with hlt | heq | hgt
    · exfalso
      have : y1 * w + x1 < y2 * w + x2 := by
        calc y1 * w + x1 < y1 * w + w := by omega
        _ = (y1 + 1) * w := by ring
        _ ≤ y2 * w := Nat.mul_le_mul_right w hlt
        _ ≤ y2 * w + x2 := Nat.le_add_right _ _
      omega
    · exact heq
    · exfalso
      have : y2 * w + x2 < y1 * w + x1 := by
        calc y2 * w + x2 < y2 * w + w := by omega
        _ = (y2 + 1) * w := by ring
        _ ≤ y1 * w := Nat.mul_le_mul_right w hgt
        _ ≤ y1 * w + x1 := Nat.le_add_right _ _
      omega
  subst hy
  exact ⟨by omega, rfl⟩

/-- A duplicate-free list of in-bounds coordinates has at most width times
height entries. -/
theorem nodup_valid_length_le (m : Map) (l : List Pos) (hnd : l.Nodup)
    (hval : ∀ c ∈ l, posValid c m.width m.height) :
    l.length ≤ m.width * m.height := by
  have hmapnd : (l.map (fun p => p.y * m.width + p.x)).Nodup := by
    apply List.Nodup.map_on _ hnd
    intro p hp q hq he
    have hpv := hval p hp
    have hqv := hval q hq
    obtain ⟨he1, he2⟩ := rowIndex_inj m.width p.x p.y q.x q.y hpv.1 hqv.1 he
    cases p
    cases q
    simp only at he1 he2
    rw [he1, he2]
  have hsub : (l.map (fun p => p.y * m.width + p.x)).toFinset ⊆
      Finset.range (m.width * m.height) := by
    intro a ha
    rw [List.mem_toFinset] at ha
    rw [Finset.mem_range]
    obtain ⟨p, hp, he⟩ := List.mem_map.mp ha
    have hpv := hval p hp
    rw [← he]
    calc p.y * m.width + p.x < p.y * m.width + m.width := by
          have := hpv.1; omega
    _ = (p.y + 1) * m.width := by ring
    _ ≤ m.height * m.width := Nat.mul_le_mul_right _ hpv.2
    _ = m.width * m.height := Nat.mul_comm _ _
  have hcard := Finset.card_le_card hsub
  rw [List.toFinset_card_of_nodup hmapnd, Finset.card_range] at hcard
  rw [List.length_map] at hcard
  exact hcard

/-! Claim C3. -/

/-- C3, amended: at every moment of a propagation run the queue holds each
coordinate at most once (there is at most one pending enqueue per cell, the
marking guard guarantees it), so the number of enqueued-but-undequeued
coordinates never exceeds the queue capacity width times height. -/
theorem C3_amended (m : Map) (k : Nat)
    (hw : m.width < U32MOD) (hh : m.height < U32MOD)
    (hb : ∃ p : Pos, posValid p m.width m.height ∧
      m.soils p = Soil.BASE_STATION) :
    (stepN m k (initState m)).queue.Nodup ∧
    (stepN m k (initState m)).queue.length ≤ m.width * m.height := by
  obtain ⟨hnd, hval, _⟩ := basicInv_stepN m k hw hh hb
  exact ⟨hnd, nodup_valid_length_le m _ hnd hval⟩

/-- C3, witness at a concrete input: the fourth state of the run on the
two-origin row map. -/
theorem C3_witness :
    (stepN twoOriginMap 3 (initState twoOriginMap)).queue.Nodup ∧
    (stepN twoOriginMap 3 (initState twoOriginMap)).queue.length ≤
      twoOriginMap.width * twoOriginMap.height :=
  C3_amended twoOriginMap 3 (by decide) (by decide)
    ⟨⟨0, 0⟩, by decide, by decide⟩

/-! Claim C8. -/

/-- Once the base station has been dequeued and settled at cost 0, its cost
stays 0 and it never re-enters the queue. -/
theorem origin_settled (m : Map)
    (hw : m.width < U32MOD) (hh : m.height < U32MOD)
    (hb : ∃ p : Pos, posValid p m.width m.height ∧
      m.soils p = Soil.BASE_STATION) :
    ∀ k : Nat, 1 ≤ k →
      (stepN m k (initState m)).costs (getBaseStationPos m) = 0 ∧
      getBaseStationPos m ∉ (stepN m k (initState m)).queue := by
  obtain ⟨hbv, hbs, _⟩ := getBaseStationPos_spec m hb
  have hbx : (getBaseStationPos m).x < U32MOD := lt_trans hbv.1 hw
  have hby : (getBaseStationPos m).y < U32MOD := lt_trans hbv.2 hh
  intro k hk
  induction k with
  | zero => omega
  | succ k ih =>
    rcases Nat.eq_zero_or_pos k with hk0 | hk1
    · subst hk0
      rw [stepN_succ_back]
      have hs0 : stepN m 0 (initState m) = initState m := rfl
      rw [hs0]
      have hq : (initState m).queue = [getBaseStationPos m] := rfl
      rw [step_cons m _ _ _ hq]
      have hic : (initState m).costs = initialCosts := rfl
      rw [hic]
      constructor
      · show updF (computeCellCost m true initialCosts (getBaseStationPos m)).costs
          (getBaseStationPos m)
          (computeCellCost m true initialCosts (getBaseStationPos m)).value
          (getBaseStationPos m) = 0
        rw [updF_self]
        rw [computeCellCost_value m true initialCosts (getBaseStationPos m) hbx hby]
        rw [hbs]
        simp [soilCost]
      · intro hmem
        rw [List.mem_append] at hmem
        rcases hmem with hmem | hmem
        · exact List.not_mem_nil _ hmem
        · rw [computeCellCost_enq m true initialCosts (getBaseStationPos m)
            hbx hby] at hmem
          exact not_mem_neighborList_self _ hbx hby
            (enqList_mem m true initialCosts _ _ hmem).1
    · obtain ⟨ihc, ihq⟩ := ih hk1
      obtain ⟨hnd, hval, hpend⟩ := basicInv_stepN m k hw hh hb
      rw [stepN_succ_back]
      rcases hq : (stepN m k (initState m)).queue with _ | ⟨c, rest⟩
      · rw [step_empty m _ hq]
        exact ⟨ihc, by rw [hq]; exact List.not_mem_nil _⟩
      · have hcv := hval c (by rw [hq]; exact List.mem_cons_self _ _)
        have hcx : c.x < U32MOD := lt_trans hcv.1 hw
        have hcy : c.y < U32MOD := lt_trans hcv.2 hh
        have hcb : getBaseStationPos m ≠ c := by
          intro he
          rw [he] at ihq
          exact ihq (by rw [hq]; exact List.mem_cons_self _ _)
        rw [step_cons m _ _ _ hq]
        constructor
        · show updF (computeCellCost m true (stepN m k (initState m)).costs c).costs c
            (computeCellCost m true (stepN m k (initState m)).costs c).value
            (getBaseStationPos m) = 0
          rw [updF_other _ _ _ _ hcb]
          rw [computeCellCost_costs m true _ c hcx hcy]
          have hnc : ¬ (true = true ∧
              ((getBaseStationPos m).x < m.width ∧
                (getBaseStationPos m).y < m.height) ∧
              getBaseStationPos m ∈ neighborList c ∧
              (stepN m k (initState m)).costs (getBaseStationPos m) =
                COST_UNDEF) := by
            intro hcon
            have h2 := hcon.2.2.2
            rw [ihc] at h2
            have hU : COST_UNDEF = 4294967295 := rfl
            omega
          exact (if_neg hnc).trans ihc
        · intro hmem
          rw [List.mem_append] at hmem
          rcases hmem with hmem | hmem
          · exact ihq (by rw [hq]; exact List.mem_cons_of_mem _ hmem)
          · rw [computeCellCost_enq m true _ c hcx hcy] at hmem
            have h2 := (enqList_mem m true _ _ _ hmem).2.2
            rw [ihc] at h2
            have hU : COST_UNDEF = 4294967295 := rfl
            omega

/-- C8: whenever the while loop of compute_costs has run to completion (the
queue is empty at the given fuel) on a grid that holds a base station, the
cost of the first base station after compute_costs and remove_false_costs is
exactly 0. -/
theorem C8_origin_cost_zero (m : Map) (fuel : Nat)
    (hw : m.width < U32MOD) (hh : m.height < U32MOD)
    (hb : ∃ p : Pos, posValid p m.width m.height ∧
      m.soils p = Soil.BASE_STATION)
    (hdone : (computeCostsRun m fuel).queue = []) :
    removeFalseCosts m (computeCostsRun m fuel).costs (getBaseStationPos m) = 0 := by
  rw [computeCostsRun_eq_stepN m fuel hw hh hb] at hdone ⊢
  have hfuel : 1 ≤ fuel := by
    by_contra hcon
    have h0 : fuel = 0 := by omega
    rw [h0] at hdone
    have hdone2 : (initState m).queue = [] := hdone
    have hq : (initState m).queue = [getBaseStationPos m] := rfl
    rw [hq] at hdone2
    exact List.cons_ne_nil _ _ hdone2
  obtain ⟨hzero, _⟩ := origin_settled m hw hh hb fuel hfuel
  obtain ⟨hbv, _, _⟩ := getBaseStationPos_spec m hb
  have hB := (repair_fold_spec m (rowMajor m)
    (stepN m fuel (initState m)).costs (stepN m fuel (initState m)).costs
    (fun _ _ => rfl) (rowMajor_nodup m)).2
  have hmem : getBaseStationPos m ∈ rowMajor m :=
    (mem_rowMajor m _).mpr ⟨hbv.1, hbv.2⟩
  have hres := hB (getBaseStationPos m) hmem (by
    intro hcon
    rw [hzero] at hcon
    omega)
  unfold removeFalseCosts
  rw [hres, hzero]

/-- C8, witness at a concrete input: the two-origin row map with fuel 8. -/
theorem C8_witness :
    removeFalseCosts twoOriginMap (computeCostsRun twoOriginMap 8).costs
      (getBaseStationPos twoOriginMap) = 0 :=
  C8_origin_cost_zero twoOriginMap 8 (by decide) (by decide)
    ⟨⟨0, 0⟩, by decide, by decide⟩ (by decide)

/-! Claim C5. -/

/-- C5, counterexample.  On the 1-by-4 map BASE, CREVASSE, BASE, PLAIN the
engine gives the second origin cost 0 and its PLAIN neighbour cost 1: the
second origin acts as a fresh zero-cost source.  Treating it as inert terrain
(the claim's words, modelled by computeCellCostInert) would instead give
those cells costs 10000 and 10001.  The run completes within the fuel used,
so these are the final cost fields. -/
theorem C5_counterexample :
    mapFromFileCosts twoOriginMap 8 ⟨2, 0⟩ = 0 ∧
    mapFromFileCosts twoOriginMap 8 ⟨3, 0⟩ = 1 ∧
    inertFinalCosts twoOriginMap 8 ⟨2, 0⟩ = 10000 ∧
    inertFinalCosts twoOriginMap 8 ⟨3, 0⟩ = 10001 ∧
    (computeCostsRun twoOriginMap 8).queue = [] ∧
    twoOriginMap.soils ⟨2, 0⟩ = Soil.BASE_STATION ∧
    getBaseStationPos twoOriginMap = ⟨0, 0⟩ := by
  refine ⟨by decide, by decide, by decide, by decide, by decide, by decide,
    by decide⟩

/-- C5, amended: propagation starts from the first origin cell in row-major
scan order (y outer, x inner); but an origin cell beyond the first is not
inert: compute_cell_cost returns 0 at every BASE_STATION cell, so any origin
reached by the propagation settles at cost 0 and acts as an additional
zero-cost source. -/
theorem C5_amended (m : Map)
    (hb : ∃ p : Pos, posValid p m.width m.height ∧
      m.soils p = Soil.BASE_STATION) :
    (posValid (getBaseStationPos m) m.width m.height
      ∧ m.soils (getBaseStationPos m) = Soil.BASE_STATION
      ∧ ∀ p : Pos, posValid p m.width m.height →
          m.soils p = Soil.BASE_STATION →
          (getBaseStationPos m).y < p.y ∨
          ((getBaseStationPos m).y = p.y ∧ (getBaseStationPos m).x ≤ p.x))
    ∧ ((initState m).queue = [getBaseStationPos m])
    ∧ ∀ (costs : Pos → Nat) (uq : Bool) (q : Pos),
        m.soils q = Soil.BASE_STATION →
        (computeCellCost m uq costs q).value = 0 := by
  refine ⟨getBaseStationPos_spec m hb, rfl, ?_⟩
  intro costs uq q hq
  show (if soilCost (m.soils q) ≠ 0
      then ((List.foldl (ccVisit m uq) ⟨COST_UNDEF, costs, []⟩
        (neighborList q)).costMin + soilCost (m.soils q)) % U32MOD
      else 0) = 0
  rw [hq]
  simp [soilCost]

/-- C5, witness at a concrete input: the two-origin row map. -/
theorem C5_witness :
    twoOriginMap.soils (getBaseStationPos twoOriginMap) = Soil.BASE_STATION ∧
    (computeCellCost twoOriginMap true initialCosts ⟨2, 0⟩).value = 0 :=
  ⟨(C5_amended twoOriginMap ⟨⟨0, 0⟩, by decide, by decide⟩).1.2.1,
   (C5_amended twoOriginMap ⟨⟨0, 0⟩, by decide, by decide⟩).2.2
     initialCosts true ⟨2, 0⟩ (by decide)⟩

/-! Counting settled cells (for the termination bound of claim C4). -/

theorem settledCount_congr (m : Map) (c1 c2 : Pos → Nat)
    (h : ∀ p : Pos, posValid p m.width m.height →
      (c1 p < COST_UNDEF - 1 ↔ c2 p < COST_UNDEF - 1)) :
    settledCount m c1 = settledCount m c2 := by
  unfold settledCount
  congr 1
  apply Finset.filter_congr
  intro xy hxy
  rw [Finset.mem_product, Finset.mem_range, Finset.mem_range] at hxy
  exact h ⟨xy.1, xy.2⟩ ⟨hxy.1, hxy.2⟩

theorem settledCount_insert (m : Map) (c1 : Pos → Nat) (c : Pos) (v : Nat)
    (hcv : posValid c m.width m.height)
    (hold : ¬ c1 c < COST_UNDEF - 1) (hnew : v < COST_UNDEF - 1) :
    settledCount m (updF c1 c v) = settledCount m c1 + 1 := by
  unfold settledCount
  have hset : ((Finset.range m.width) ×ˢ (Finset.range m.height)).filter
      (fun xy => updF c1 c v ⟨xy.1, xy.2⟩ < COST_UNDEF - 1) =
      insert (c.x, c.y) (((Finset.range m.width) ×ˢ (Finset.range m.height)).filter
        (fun xy => c1 ⟨xy.1, xy.2⟩ < COST_UNDEF - 1)) := by
    ext xy
    rw [Finset.mem_insert, Finset.mem_filter, Finset.mem_filter]
    constructor
    · rintro ⟨hmem, hlt⟩
      by_cases hxy : (⟨xy.1, xy.2⟩ : Pos) = c
      · left
        rw [← hxy]
      · right
        rw [updF_other _ _ _ _ hxy] at hlt
        exact ⟨hmem, hlt⟩
    · rintro (he | ⟨hmem, hlt⟩)
      · constructor
        · rw [Finset.mem_product, Finset.mem_range, Finset.mem_range]
          rw [he]
          exact ⟨hcv.1, hcv.2⟩
        · have hxy : (⟨xy.1, xy.2⟩ : Pos) = c := by
            rw [he]
          rw [hxy, updF_self]
          exact hnew
      · have hxy : (⟨xy.1, xy.2⟩ : Pos) ≠ c := by
          intro he2
          rw [← he2] at hold
          exact hold hlt
        rw [updF_other _ _ _ _ hxy]
        exact ⟨hmem, hlt⟩
  rw [hset, Finset.card_insert_of_not_mem]
  rw [Finset.mem_filter]
  rintro ⟨_, hlt⟩
  have hcc : (⟨c.x, c.y⟩ : Pos) = c := rfl
  rw [hcc] at hlt
  exact hold hlt

theorem settledCount_initial (m : Map) : settledCount m initialCosts = 0 := by
  unfold settledCount
  rw [Finset.card_eq_zero, Finset.filter_eq_empty_iff]
  intro xy _
  show ¬ initialCosts ⟨xy.1, xy.2⟩ < COST_UNDEF - 1
  unfold initialCosts
  have hU : COST_UNDEF = 4294967295 := rfl
  omega

theorem settledCount_lt_of_unsettled (m : Map) (costs : Pos → Nat) (c : Pos)
    (hcv : posValid c m.width m.height) (hun : ¬ costs c < COST_UNDEF - 1) :
    settledCount m costs < m.width * m.height := by
  unfold settledCount
  have hsub : ((Finset.range m.width) ×ˢ (Finset.range m.height)).filter
      (fun xy => costs ⟨xy.1, xy.2⟩ < COST_UNDEF - 1) ⊆
      ((Finset.range m.width) ×ˢ (Finset.range m.height)).erase (c.x, c.y) := by
    intro xy hxy
    rw [Finset.mem_filter] at hxy
    rw [Finset.mem_erase]
    refine ⟨?_, hxy.1⟩
    intro he
    have hxyc : (⟨xy.1, xy.2⟩ : Pos) = c := by
      rw [he]
    rw [hxyc] at hxy
    exact hun hxy.2
  calc (((Finset.range m.width) ×ˢ (Finset.range m.height)).filter
        (fun xy => costs ⟨xy.1, xy.2⟩ < COST_UNDEF - 1)).card
      ≤ (((Finset.range m.width) ×ˢ (Finset.range m.height)).erase
          (c.x, c.y)).card := Finset.card_le_card hsub
  _ < ((Finset.range m.width) ×ˢ (Finset.range m.height)).card := by
      apply Finset.card_erase_lt_of_mem
      rw [Finset.mem_product, Finset.mem_range, Finset.mem_range]
      exact ⟨hcv.1, hcv.2⟩
  _ = m.width * m.height := by
      rw [Finset.card_product, Finset.card_range, Finset.card_range]

theorem minFold_le_init (m : Map) (costs : Pos → Nat) :
    ∀ (l : List Pos) (a : Nat), minFold m costs l a ≤ a := by
  intro l
  induction l with
  | nil => intro a; exact le_refl a
  | cons q r ih =>
    intro a
    unfold minFold
    simp only [List.foldl_cons]
    by_cases hv : q.x < m.width ∧ q.y < m.height
    · rw [if_pos hv]
      exact le_trans (ih (min a (costs q))) (Nat.min_le_left _ _)
    · rw [if_neg hv]
      exact ih a

theorem minFold_le_mem (m : Map) (costs : Pos → Nat) :
    ∀ (l : List Pos) (a : Nat) (n : Pos), n ∈ l →
      n.x < m.width ∧ n.y < m.height → minFold m costs l a ≤ costs n := by
  intro l
  induction l with
  | nil => intro a n hn; exact absurd hn (List.not_mem_nil n)
  | cons q r ih =>
    intro a n hn hv
    unfold minFold
    simp only [List.foldl_cons]
    rcases List.mem_cons.mp hn with he | hm
    · subst he
      rw [if_pos hv]
      exact le_trans (minFold_le_init m costs r _) (Nat.min_le_right _ _)
    · by_cases hvq : q.x < m.width ∧ q.y < m.height
      · rw [if_pos hvq]
        exact ih _ n hm hv
      · rw [if_neg hvq]
        exact ih _ n hm hv

/-- Adjacency is symmetric for in-bounds cells of a map whose dimensions fit
in 32 bits. -/
theorem neighbor_symm (m : Map) (c q : Pos)
    (hc : posValid c m.width m.height) (hq : posValid q m.width m.height)
    (hw : m.width < U32MOD) (hh : m.height < U32MOD)
    (hmem : q ∈ neighborList c) : c ∈ neighborList q := by
  have hM : U32MOD = 4294967296 := rfl
  obtain ⟨cx, cy⟩ := c
  obtain ⟨qx, qy⟩ := q
  have hcx1 : cx < m.width := hc.1
  have hcy1 : cy < m.height := hc.2
  have hqx : qx < m.width := hq.1
  have hqy : qy < m.height := hq.2
  have hcx : cx < U32MOD := by omega
  have hcy : cy < U32MOD := by omega
  have hcx2 : cx + 1 < U32MOD := by omega
  have hcy2 : cy + 1 < U32MOD := by omega
  simp only [neighborList, List.mem_cons, List.not_mem_nil, or_false,
    Pos.mk.injEq] at hmem ⊢
  rcases hmem with ⟨h1, h2⟩ | ⟨h1, h2⟩ | ⟨h1, h2⟩ | ⟨h1, h2⟩
  · rw [wrapDec cx hcx] at h1
    by_cases h0 : cx = 0
    · rw [if_pos h0] at h1
      exfalso
      omega
    · rw [if_neg h0] at h1
      right; left
      refine ⟨?_, h2.symm⟩
      rw [h1]
      have he : cx - 1 + 1 = cx := by omega
      rw [he, Nat.mod_eq_of_lt hcx]
  · rw [wrapInc cx hcx] at h1
    by_cases h0 : cx + 1 = U32MOD
    · exfalso
      omega
    · rw [if_neg h0] at h1
      left
      refine ⟨?_, h2.symm⟩
      rw [h1, wrapDec (cx + 1) hcx2, if_neg (by omega)]
      omega
  · rw [wrapDec cy hcy] at h2
    by_cases h0 : cy = 0
    · rw [if_pos h0] at h2
      exfalso
      omega
    · rw [if_neg h0] at h2
      right; right; right
      refine ⟨h1.symm, ?_⟩
      rw [h2]
      have he : cy - 1 + 1 = cy := by omega
      rw [he, Nat.mod_eq_of_lt hcy]
  · rw [wrapInc cy hcy] at h2
    by_cases h0 : cy + 1 = U32MOD
    · exfalso
      omega
    · rw [if_neg h0] at h2
      right; right; left
      refine ⟨h1.symm, ?_⟩
      rw [h2, wrapDec (cy + 1) hcy2, if_neg (by omega)]
      omega

/-- After the first loop iteration (the base station dequeued, settled at 0,
its undefined neighbours enqueued and marked pending) the run invariant holds
at index 1. -/
theorem kInv_bootstrap (m : Map)
    (hw : m.width < U32MOD) (hh : m.height < U32MOD)
    (hb : ∃ p : Pos, posValid p m.width m.height ∧
      m.soils p = Soil.BASE_STATION) :
    KInv m 1 (stepN m 1 (initState m)) := by
  obtain ⟨hbv, hbs, _⟩ := getBaseStationPos_spec m hb
  have hbx : (getBaseStationPos m).x < U32MOD := lt_trans hbv.1 hw
  have hby : (getBaseStationPos m).y < U32MOD := lt_trans hbv.2 hh
  have hU : COST_UNDEF = 4294967295 := rfl
  have hs0 : stepN m 1 (initState m) = step m (initState m) := rfl
  have hq : (initState m).queue = [getBaseStationPos m] := rfl
  have hic : (initState m).costs = initialCosts := rfl
  rw [hs0, step_cons m _ _ _ hq, hic]
  have hval0 : (computeCellCost m true initialCosts (getBaseStationPos m)).value
      = 0 := by
    rw [computeCellCost_value m true initialCosts _ hbx hby, hbs]
    simp [soilCost]
  have hcosts := computeCellCost_costs m true initialCosts
    (getBaseStationPos m) hbx hby
  have henq := computeCellCost_enq m true initialCosts
    (getBaseStationPos m) hbx hby
  have henq_mem : ∀ q ∈ (computeCellCost m true initialCosts
      (getBaseStationPos m)).enq,
      q ∈ neighborList (getBaseStationPos m) ∧
      (q.x < m.width ∧ q.y < m.height) ∧ initialCosts q = COST_UNDEF := by
    intro q hqe
    rw [henq] at hqe
    exact enqList_mem m true initialCosts _ q hqe
  have hqnb : ∀ q ∈ (computeCellCost m true initialCosts
      (getBaseStationPos m)).enq, q ≠ getBaseStationPos m := by
    intro q hqe he
    rw [he] at hqe
    exact not_mem_neighborList_self _ hbx hby (henq_mem _ hqe).1
  have hr_costs_at : ∀ q : Pos, q ≠ getBaseStationPos m →
      updF (computeCellCost m true initialCosts (getBaseStationPos m)).costs
        (getBaseStationPos m)
        (computeCellCost m true initialCosts (getBaseStationPos m)).value q =
      (computeCellCost m true initialCosts (getBaseStationPos m)).costs q :=
    fun q hqb => updF_other _ _ _ _ hqb
  refine ⟨?_, ?_, ?_, ?_, ?_, ?_⟩
  · show (([] : List Pos) ++ _).Nodup
    rw [List.nil_append, henq]
    exact enqList_nodup m true initialCosts _
      (neighborList_nodup _ hbx hby)
  · intro c hc
    rw [List.nil_append] at hc
    exact ⟨(henq_mem c hc).2.1.1, (henq_mem c hc).2.1.2⟩
  · intro c hc
    rw [List.nil_append] at hc
    show updF _ _ _ c = COST_UNDEF - 1
    rw [hr_costs_at c (hqnb c hc), hcosts]
    exact if_pos ⟨rfl, (henq_mem c hc).2.1, (henq_mem c hc).1,
      (henq_mem c hc).2.2⟩
  · intro p hp
    by_cases hpb : p = getBaseStationPos m
    · right; right
      show updF _ _ _ p ≤ 10000 * 1
      rw [hpb, updF_self, hval0]
      omega
    · by_cases hcond : true = true ∧ (p.x < m.width ∧ p.y < m.height) ∧
          p ∈ neighborList (getBaseStationPos m) ∧
          initialCosts p = COST_UNDEF
      · right; left
        show updF _ _ _ p = COST_UNDEF - 1
        rw [hr_costs_at p hpb, hcosts]
        exact if_pos hcond
      · left
        show updF _ _ _ p = COST_UNDEF
        rw [hr_costs_at p hpb, hcosts]
        exact if_neg hcond
  · intro c hc
    rw [List.nil_append] at hc
    refine ⟨getBaseStationPos m, ?_, ⟨hbv.1, hbv.2⟩, ?_⟩
    · exact neighbor_symm m (getBaseStationPos m) c hbv
        ⟨(henq_mem c hc).2.1.1, (henq_mem c hc).2.1.2⟩ hw hh (henq_mem c hc).1
    · show updF _ _ _ (getBaseStationPos m) ≤ 10000 * 1
      rw [updF_self, hval0]
      omega
  · right
    show settledCount m (updF _ _ _) = 1
    have hA : settledCount m (computeCellCost m true initialCosts
        (getBaseStationPos m)).costs = settledCount m initialCosts := by
      apply settledCount_congr
      intro p _
      have hx : (computeCellCost m true initialCosts
          (getBaseStationPos m)).costs p = COST_UNDEF - 1 ∨
          (computeCellCost m true initialCosts
            (getBaseStationPos m)).costs p = initialCosts p := by
        rw [hcosts]
        by_cases hcond : true = true ∧ (p.x < m.width ∧ p.y < m.height) ∧
            p ∈ neighborList (getBaseStationPos m) ∧
            initialCosts p = COST_UNDEF
        · exact Or.inl (if_pos hcond)
        · exact Or.inr (if_neg hcond)
      rcases hx with hx | hx
      · rw [hx]
        unfold initialCosts
        omega
      · rw [hx]
    have hold : ¬ (computeCellCost m true initialCosts
        (getBaseStationPos m)).costs (getBaseStationPos m) < COST_UNDEF - 1 := by
      have hnc : ¬ (true = true ∧
          ((getBaseStationPos m).x < m.width ∧
            (getBaseStationPos m).y < m.height) ∧
          getBaseStationPos m ∈ neighborList (getBaseStationPos m) ∧
          initialCosts (getBaseStationPos m) = COST_UNDEF) := by
        intro hcon
        exact not_mem_neighborList_self _ hbx hby hcon.2.2.1
      have hx : (computeCellCost m true initialCosts
          (getBaseStationPos m)).costs (getBaseStationPos m) =
          initialCosts (getBaseStationPos m) := by
        rw [hcosts]
        exact if_neg hnc
      rw [hx]
      unfold initialCosts
      omega
    rw [settledCount_insert m _ _ _ hbv hold (by rw [hval0]; omega), hA,
      settledCount_initial]

/-- One loop iteration preserves the run invariant, stepping its index, as
long as the new settled band stays below the pending sentinel. -/
theorem kInv_step (m : Map) (k : Nat) (s : RunState)
    (hw : m.width < U32MOD) (hh : m.height < U32MOD)
    (hk : 10000 * (k + 1) < COST_UNDEF - 1)
    (h : KInv m k s) : KInv m (k + 1) (step m s) := by
  obtain ⟨hnd, hval, hpend, hband, hsup, hcount⟩ := h
  have hU : COST_UNDEF = 4294967295 := rfl
  have hM : U32MOD = 4294967296 := rfl
  have hmul : 10000 * (k + 1) = 10000 * k + 10000 := by ring
  have hbandS : ∀ p : Pos, posValid p m.width m.height →
      s.costs p = COST_UNDEF ∨ s.costs p = COST_UNDEF - 1 ∨
      s.costs p ≤ 10000 * (k + 1) := by
    intro p hp
    rcases hband p hp with h1 | h1 | h1
    · exact Or.inl h1
    · exact Or.inr (Or.inl h1)
    · exact Or.inr (Or.inr (by omega))
  rcases hq : s.queue with _ | ⟨c, rest⟩
  · rw [step_empty m s hq]
    refine ⟨hnd, hval, hpend, hbandS, ?_, Or.inl hq⟩
    intro c hc
    obtain ⟨n, hn1, hn2, hn3⟩ := hsup c hc
    exact ⟨n, hn1, hn2, by omega⟩
  · have hcm : c ∈ s.queue := by rw [hq]; exact List.mem_cons_self _ _
    have hcv := hval c hcm
    have hcx : c.x < U32MOD := lt_trans hcv.1 hw
    have hcy : c.y < U32MOD := lt_trans hcv.2 hh
    have hcpend : s.costs c = COST_UNDEF - 1 := hpend c hcm
    have hrest_nd : rest.Nodup := by
      rw [hq] at hnd; exact (List.nodup_cons.mp hnd).2
    have hcrest : c ∉ rest := by
      rw [hq] at hnd; exact (List.nodup_cons.mp hnd).1
    obtain ⟨n0, hn0mem, hn0v, hn0b⟩ := hsup c hcm
    have hminle : minFold m s.costs (neighborList c) COST_UNDEF ≤ 10000 * k :=
      le_trans (minFold_le_mem m s.costs (neighborList c) COST_UNDEF n0 hn0mem
        ⟨hn0v.1, hn0v.2⟩) hn0b
    have hvalue : (computeCellCost m true s.costs c).value ≤ 10000 * (k + 1) := by
      rw [computeCellCost_value m true s.costs c hcx hcy]
      by_cases ht : soilCost (m.soils c) ≠ 0
      · rw [if_pos ht]
        have hts := soilCost_le (m.soils c)
        rw [Nat.mod_eq_of_lt (by omega)]
        omega
      · rw [if_neg ht]
        omega
    have hcosts := computeCellCost_costs m true s.costs c hcx hcy
    have henq := computeCellCost_enq m true s.costs c hcx hcy
    have henq_mem : ∀ q ∈ (computeCellCost m true s.costs c).enq,
        q ∈ neighborList c ∧ (q.x < m.width ∧ q.y < m.height) ∧
        s.costs q = COST_UNDEF := by
      intro q hqe
      rw [henq] at hqe
      exact enqList_mem m true s.costs _ q hqe
    have hqnc : ∀ q ∈ (computeCellCost m true s.costs c).enq, q ≠ c := by
      intro q hqe he
      rw [he] at hqe
      exact not_mem_neighborList_self c hcx hcy (henq_mem _ hqe).1
    have hrestpend : ∀ q ∈ rest, s.costs q = COST_UNDEF - 1 := by
      intro q hqr
      exact hpend q (by rw [hq]; exact List.mem_cons_of_mem _ hqr)
    have hrestnc : ∀ q ∈ rest, q ≠ c := by
      intro q hqr he
      rw [he] at hqr
      exact hcrest hqr
    have hnewcosts : ∀ q : Pos, q ≠ c →
        updF (computeCellCost m true s.costs c).costs c
          (computeCellCost m true s.costs c).value q =
        (computeCellCost m true s.costs c).costs q :=
      fun q hqc => updF_other _ _ _ _ hqc
    have hmarked_same : ∀ q : Pos, q ≠ c → s.costs q ≠ COST_UNDEF →
        updF (computeCellCost m true s.costs c).costs c
          (computeCellCost m true s.costs c).value q = s.costs q := by
      intro q hqc hqU
      rw [hnewcosts q hqc, hcosts]
      have hnc : ¬ (true = true ∧ (q.x < m.width ∧ q.y < m.height) ∧
          q ∈ neighborList c ∧ s.costs q = COST_UNDEF) :=
        fun hcon => hqU hcon.2.2.2
      exact if_neg hnc
    rw [step_cons m s c rest hq]
    refine ⟨?_, ?_, ?_, ?_, ?_, ?_⟩
    · apply List.Nodup.append hrest_nd
      · rw [henq]
        exact enqList_nodup m true s.costs _ (neighborList_nodup c hcx hcy)
      · intro q hqr hqe
        have h1 := hrestpend q hqr
        have h2 := (henq_mem q hqe).2.2
        omega
    · intro q hqm
      rcases List.mem_append.mp hqm with hr | he
      · exact hval q (by rw [hq]; exact List.mem_cons_of_mem _ hr)
      · exact ⟨(henq_mem q he).2.1.1, (henq_mem q he).2.1.2⟩
    · intro q hqm
      show updF _ _ _ q = COST_UNDEF - 1
      rcases List.mem_append.mp hqm with hr | he
      · rw [hmarked_same q (hrestnc q hr) (by rw [hrestpend q hr]; omega)]
        exact hrestpend q hr
      · rw [hnewcosts q (hqnc q he), hcosts]
        exact if_pos ⟨rfl, (henq_mem q he).2.1, (henq_mem q he).1,
          (henq_mem q he).2.2⟩
    · intro p hp
      by_cases hpc : p = c
      · right; right
        show updF _ _ _ p ≤ 10000 * (k + 1)
        rw [hpc, updF_self]
        exact hvalue
      · by_cases hcond : true = true ∧ (p.x < m.width ∧ p.y < m.height) ∧
            p ∈ neighborList c ∧ s.costs p = COST_UNDEF
        · right; left
          show updF _ _ _ p = COST_UNDEF - 1
          rw [hnewcosts p hpc, hcosts]
          exact if_pos hcond
        · have heq : updF (computeCellCost m true s.costs c).costs c
              (computeCellCost m true s.costs c).value p = s.costs p := by
            rw [hnewcosts p hpc, hcosts]
            exact if_neg hcond
          rcases hbandS p hp with h1 | h1 | h1
          · left
            show updF _ _ _ p = COST_UNDEF
            rw [heq]
            exact h1
          · right; left
            show updF _ _ _ p = COST_UNDEF - 1
            rw [heq]
            exact h1
          · right; right
            show updF _ _ _ p ≤ 10000 * (k + 1)
            rw [heq]
            exact h1
    · intro q hqm
      rcases List.mem_append.mp hqm with hr | he
      · obtain ⟨n, hn1, hn2, hn3⟩ := hsup q
          (by rw [hq]; exact List.mem_cons_of_mem _ hr)
        refine ⟨n, hn1, hn2, ?_⟩
        have hnc2 : n ≠ c := by
          intro he2
          rw [he2, hcpend] at hn3
          omega
        show updF _ _ _ n ≤ 10000 * (k + 1)
        rw [hmarked_same n hnc2 (by omega)]
        omega
      · refine ⟨c, ?_, ⟨hcv.1, hcv.2⟩, ?_⟩
        · exact neighbor_symm m c q hcv
            ⟨(henq_mem q he).2.1.1, (henq_mem q he).2.1.2⟩ hw hh
            (henq_mem q he).1
        · show updF _ _ _ c ≤ 10000 * (k + 1)
          rw [updF_self]
          exact hvalue
    · right
      show settledCount m (updF _ _ _) = k + 1
      have hA : settledCount m (computeCellCost m true s.costs c).costs =
          settledCount m s.costs := by
        apply settledCount_congr
        intro p _
        by_cases hcond : true = true ∧ (p.x < m.width ∧ p.y < m.height) ∧
            p ∈ neighborList c ∧ s.costs p = COST_UNDEF
        · have hx : (computeCellCost m true s.costs c).costs p =
              COST_UNDEF - 1 := by
            rw [hcosts]
            exact if_pos hcond
          rw [hx]
          have := hcond.2.2.2
          omega
        · have hx : (computeCellCost m true s.costs c).costs p = s.costs p := by
            rw [hcosts]
            exact if_neg hcond
          rw [hx]
      have hold : ¬ (computeCellCost m true s.costs c).costs c <
          COST_UNDEF - 1 := by
        have hnc : ¬ (true = true ∧ (c.x < m.width ∧ c.y < m.height) ∧
            c ∈ neighborList c ∧ s.costs c = COST_UNDEF) :=
          fun hcon => not_mem_neighborList_self c hcx hcy hcon.2.2.1
        have hx : (computeCellCost m true s.costs c).costs c = s.costs c := by
          rw [hcosts]
          exact if_neg hnc
        rw [hx, hcpend]
        omega
      rw [settledCount_insert m _ _ _ hcv hold (by omega), hA]
      rcases hcount with hcq | hcq
      · rw [hq] at hcq
        exact absurd hcq (List.cons_ne_nil _ _)
      · rw [hcq]

/-- The run invariant holds at every step index from 1 up to the cell count. -/
theorem kInv_stepN (m : Map)
    (hw : m.width < U32MOD) (hh : m.height < U32MOD)
    (hb : ∃ p : Pos, posValid p m.width m.height ∧
      m.soils p = Soil.BASE_STATION)
    (hsize : 10000 * (m.width * m.height + 1) < COST_UNDEF - 1) :
    ∀ k, 1 ≤ k → k ≤ m.width * m.height →
      KInv m k (stepN m k (initState m)) := by
  intro k
  induction k with
  | zero => intro h _; omega
  | succ k ih =>
    intro _ hle
    rcases Nat.eq_zero_or_pos k with h0 | h1
    · subst h0
      exact kInv_bootstrap m hw hh hb
    · rw [stepN_succ_back]
      apply kInv_step m k _ hw hh ?_ (ih h1 (by omega))
      have hmono : 10000 * (k + 1) ≤ 10000 * (m.width * m.height + 1) :=
        Nat.mul_le_mul_left 10000 (by omega)
      omega

/-- C4, amended: for every grid containing an origin cell whose size keeps the
accumulated costs below the sentinel band (10000 times (cells + 1) below
2^32 - 2, so no settled value can wrap onto COST_UNDEF), the while loop
terminates after at most width times height dequeues: the queue is empty
after width times height iterations, and every further iteration leaves the
state unchanged. -/
theorem C4_amended (m : Map)
    (hw : m.width < U32MOD) (hh : m.height < U32MOD)
    (hb : ∃ p : Pos, posValid p m.width m.height ∧
      m.soils p = Soil.BASE_STATION)
    (hsize : 10000 * (m.width * m.height + 1) < COST_UNDEF - 1) :
    (stepN m (m.width * m.height) (initState m)).queue = [] ∧
    ∀ j, stepN m (m.width * m.height + j) (initState m) =
      stepN m (m.width * m.height) (initState m) := by
  have hwh1 : 1 ≤ m.width * m.height := by
    obtain ⟨p, hpv, _⟩ := hb
    have h1 : p.x < m.width := hpv.1
    have h2 : p.y < m.height := hpv.2
    have : 0 < m.width := by omega
    have : 0 < m.height := by omega
    exact Nat.mul_pos (by omega) (by omega)
  have hempty : (stepN m (m.width * m.height) (initState m)).queue = [] := by
    obtain ⟨hnd, hval, hpend, hband, hsup, hcount⟩ :=
      kInv_stepN m hw hh hb hsize (m.width * m.height) hwh1 (le_refl _)
    rcases hcount with hc | hc
    · exact hc
    · rcases hqe : (stepN m (m.width * m.height) (initState m)).queue
        with _ | ⟨c, rest⟩
      · rfl
      · exfalso
        have hcm : c ∈ (stepN m (m.width * m.height) (initState m)).queue := by
          rw [hqe]; exact List.mem_cons_self _ _
        have hcv := hval c hcm
        have hcpend := hpend c hcm
        have hlt := settledCount_lt_of_unsettled m
          (stepN m (m.width * m.height) (initState m)).costs c hcv
          (by rw [hcpend]; omega)
        rw [hc] at hlt
        exact absurd hlt (lt_irrefl _)
  exact ⟨hempty, fun j => stepN_empty_stable m _ _ hempty j⟩

/-- C4, witness at a concrete input: the two-origin row map (4 cells). -/
theorem C4_witness :
    (stepN twoOriginMap (twoOriginMap.width * twoOriginMap.height)
      (initState twoOriginMap)).queue = [] :=
  (C4_amended twoOriginMap (by decide) (by decide)
    ⟨⟨0, 0⟩, by decide, by decide⟩ (by decide)).1

/-! Claim C1. -/

/-- C1: on a 1-by-1 PLAIN grid with no base station, compute_costs aborts
without propagating (the cost field is still all COST_UNDEF and the queue
empty), but map_from_file then still runs remove_false_costs, which rewrites
the lone non-origin cell from COST_UNDEF to (COST_UNDEF plus 1) mod
two-to-32, that is 0 — so after map_from_file returns, the cell does NOT hold
the undefined sentinel the claim (and the spec's failure semantics) promise. -/
theorem C1_no_origin_behavior :
    noOriginMap.soils ⟨0, 0⟩ ≠ Soil.BASE_STATION ∧
    getBaseStationPos noOriginMap = ⟨COST_UNDEF, COST_UNDEF⟩ ∧
    (computeCostsRun noOriginMap 0).costs ⟨0, 0⟩ = COST_UNDEF ∧
    (computeCostsRun noOriginMap 0).queue = [] ∧
    mapFromFileCosts noOriginMap 0 ⟨0, 0⟩ = 0 ∧
    mapFromFileCosts noOriginMap 0 ⟨0, 0⟩ ≠ COST_UNDEF := by
  refine ⟨by decide, by decide, by decide, by decide, by decide, by decide⟩

/-! Claim C7, counterexample. -/

/-- C7, counterexample: the 1-by-2 grid BASE_STATION, ERG has exactly one
origin cell and no crevasse, yet after both passes the ERG cell's cost is its
terrain-weighted distance 2, not its Manhattan distance 1 from the origin. -/
theorem C7_counterexample :
    (∀ x, x < 2 → ∀ y, y < 1 →
      (rowBaseErg.soils ⟨x, y⟩ = Soil.BASE_STATION ↔ x = 0 ∧ y = 0) ∧
      rowBaseErg.soils ⟨x, y⟩ ≠ Soil.CREVASSE) ∧
    (computeCostsRun rowBaseErg 3).queue = [] ∧
    mapFromFileCosts rowBaseErg 3 ⟨1, 0⟩ = 2 ∧
    manhattan ⟨1, 0⟩ (getBaseStationPos rowBaseErg) = 1 := by
  refine ⟨by decide, by decide, by decide, by decide⟩

/-! The wrap-around chain run: counterexample machinery for claims C3 and
C4.  Costs along the chain reach exactly COST_UNDEF at cell monK, whose right
neighbour therefore re-enqueues it. -/

theorem minFold_nil (m : Map) (costs : Pos → Nat) (a : Nat) :
    minFold m costs [] a = a := rfl

theorem minFold_cons_valid (m : Map) (costs : Pos → Nat) (q : Pos)
    (l : List Pos) (a : Nat) (h : q.x < m.width ∧ q.y < m.height) :
    minFold m costs (q :: l) a = minFold m costs l (min a (costs q)) := by
  unfold minFold
  simp only [List.foldl_cons]
  rw [if_pos h]

theorem minFold_cons_invalid (m : Map) (costs : Pos → Nat) (q : Pos)
    (l : List Pos) (a : Nat) (h : ¬ (q.x < m.width ∧ q.y < m.height)) :
    minFold m costs (q :: l) a = minFold m costs l a := by
  unfold minFold
  simp only [List.foldl_cons]
  rw [if_neg h]

theorem monV_le (i : Nat) (h : i ≤ monK) : monV i ≤ COST_UNDEF := by
  have hm : monM = 429496 := rfl
  have hk : monK = 436791 := rfl
  have hU : COST_UNDEF = 4294967295 := rfl
  unfold monV
  rcases Nat.le_total i monM with hle | hge
  · rw [Nat.min_eq_left hle]
    omega
  · rw [Nat.min_eq_right hge]
    omega

theorem monV_lt (i : Nat) (h : i < monK) : monV i < COST_UNDEF := by
  have hm : monM = 429496 := rfl
  have hk : monK = 436791 := rfl
  have hU : COST_UNDEF = 4294967295 := rfl
  unfold monV
  rcases Nat.le_total i monM with hle | hge
  · rw [Nat.min_eq_left hle]
    omega
  · rw [Nat.min_eq_right hge]
    omega

theorem monV_K : monV monK = COST_UNDEF := by
  have hm : monM = 429496 := rfl
  have hk : monK = 436791 := rfl
  have hU : COST_UNDEF = 4294967295 := rfl
  unfold monV
  rw [Nat.min_eq_right (by omega)]
  omega

theorem monV_rec (i : Nat) (h : 1 ≤ i) :
    monV i = monV (i - 1) + (if i ≤ monM then 10000 else 1) := by
  have hm : monM = 429496 := rfl
  unfold monV
  by_cases hle : i ≤ monM
  · rw [if_pos hle, Nat.min_eq_left hle, Nat.min_eq_left (by omega)]
    have : 10000 * i = 10000 * (i - 1) + 10000 := by
      have he : i = (i - 1) + 1 := by omega
      rw [he]
      ring_nf
      omega
    omega
  · rw [if_neg hle, Nat.min_eq_right (by omega), Nat.min_eq_right (by omega)]
    omega

theorem monster_t (i : Nat) (h : 1 ≤ i) :
    soilCost (monsterMap.soils ⟨i, 0⟩) = if i ≤ monM then 10000 else 1 := by
  show soilCost (if i = 0 then Soil.BASE_STATION
    else if i ≤ monM then Soil.CREVASSE else Soil.PLAIN) = _
  rw [if_neg (by omega : ¬ i = 0)]
  by_cases hle : i ≤ monM
  · rw [if_pos hle, if_pos hle]
    rfl
  · rw [if_neg hle, if_neg hle]
    rfl

theorem scanRowFrom_succ (m : Map) (y k x : Nat) :
    scanRowFrom m y (k + 1) x =
      if m.soils ⟨x, y⟩ = Soil.BASE_STATION then some x
      else scanRowFrom m y k (x + 1) := rfl

theorem scanRowsFrom_succ (m : Map) (k y : Nat) :
    scanRowsFrom m (k + 1) y =
      match scanRowFrom m y m.width 0 with
      | some x => some ⟨x, y⟩
      | none => scanRowsFrom m k (y + 1) := rfl

theorem monster_base : getBaseStationPos monsterMap = ⟨0, 0⟩ := by
  have h1 : scanRowFrom monsterMap 0 monsterMap.width 0 = some 0 := by
    have hw : monsterMap.width = 436792 + 1 := rfl
    rw [hw, scanRowFrom_succ,
      if_pos (show monsterMap.soils ⟨0, 0⟩ = Soil.BASE_STATION from rfl)]
  have h2 : scanRowsFrom monsterMap monsterMap.height 0 = some ⟨0, 0⟩ := by
    have hh : monsterMap.height = 0 + 1 := rfl
    rw [hh, scanRowsFrom_succ, h1]
  unfold getBaseStationPos
  rw [h2]

theorem monster_nbr (i : Nat) (h1 : 1 ≤ i) (hi : i + 1 < U32MOD) :
    neighborList ⟨i, 0⟩ =
      [⟨i - 1, 0⟩, ⟨i + 1, 0⟩, ⟨i, U32MOD - 1⟩, ⟨i, 1⟩] := by
  have hM : U32MOD = 4294967296 := rfl
  show ([⟨(i + (U32MOD - 1)) % U32MOD, 0⟩, ⟨(i + 1) % U32MOD, 0⟩,
    ⟨i, (0 + (U32MOD - 1)) % U32MOD⟩, ⟨i, (0 + 1) % U32MOD⟩] : List Pos) = _
  rw [wrapDec i (by omega), if_neg (by omega : ¬ i = 0),
    wrapInc i (by omega), if_neg (by omega : ¬ i + 1 = U32MOD)]
  rw [Nat.zero_add, Nat.zero_add, Nat.mod_eq_of_lt (by omega),
    Nat.mod_eq_of_lt (by omega)]

theorem monster_nbr0 :
    neighborList ⟨0, 0⟩ =
      [⟨U32MOD - 1, 0⟩, ⟨1, 0⟩, ⟨0, U32MOD - 1⟩, ⟨0, 1⟩] := by
  have hM : U32MOD = 4294967296 := rfl
  show ([⟨(0 + (U32MOD - 1)) % U32MOD, 0⟩, ⟨(0 + 1) % U32MOD, 0⟩,
    ⟨0, (0 + (U32MOD - 1)) % U32MOD⟩, ⟨0, (0 + 1) % U32MOD⟩] : List Pos) = _
  rw [Nat.zero_add, Nat.zero_add, Nat.mod_eq_of_lt (by omega),
    Nat.mod_eq_of_lt (by omega)]

theorem monCosts_at (i qx qy : Nat) :
    monCosts i ⟨qx, qy⟩ =
      if qy = 0 ∧ qx < i then monV qx
      else if qy = 0 ∧ qx = i then COST_UNDEF - 1
      else COST_UNDEF := rfl

theorem monEnq_at (i qx qy : Nat) :
    monEnq i ⟨qx, qy⟩ = if qy = 0 ∧ qx ≤ i then 1 else 0 := rfl

theorem enqList_nil (m : Map) (uq : Bool) (costs : Pos → Nat) :
    enqList m uq costs [] = [] := rfl

theorem monster_minFold (i : Nat) (h1 : 1 ≤ i) (hik : i ≤ monK) :
    minFold monsterMap (monCosts i) (neighborList ⟨i, 0⟩) COST_UNDEF =
      monV (i - 1) := by
  have hM : U32MOD = 4294967296 := rfl
  have hk : monK = 436791 := rfl
  have hN2 : monsterMap.width = 436793 := rfl
  have hH2 : monsterMap.height = 1 := rfl
  rw [monster_nbr i h1 (by omega)]
  have hv1 : ((⟨i - 1, 0⟩ : Pos).x < monsterMap.width ∧
      (⟨i - 1, 0⟩ : Pos).y < monsterMap.height) :=
    ⟨by show i - 1 < monsterMap.width; omega,
     by show (0 : Nat) < monsterMap.height; omega⟩
  have hv2 : ((⟨i + 1, 0⟩ : Pos).x < monsterMap.width ∧
      (⟨i + 1, 0⟩ : Pos).y < monsterMap.height) :=
    ⟨by show i + 1 < monsterMap.width; omega,
     by show (0 : Nat) < monsterMap.height; omega⟩
  have hv3 : ¬ ((⟨i, U32MOD - 1⟩ : Pos).x < monsterMap.width ∧
      (⟨i, U32MOD - 1⟩ : Pos).y < monsterMap.height) := by
    intro hc
    have h2 : U32MOD - 1 < monsterMap.height := hc.2
    omega
  have hv4 : ¬ ((⟨i, 1⟩ : Pos).x < monsterMap.width ∧
      (⟨i, 1⟩ : Pos).y < monsterMap.height) := by
    intro hc
    have h2 : (1 : Nat) < monsterMap.height := hc.2
    omega
  rw [minFold_cons_valid _ _ _ _ _ hv1, minFold_cons_valid _ _ _ _ _ hv2,
    minFold_cons_invalid _ _ _ _ _ hv3, minFold_cons_invalid _ _ _ _ _ hv4,
    minFold_nil]
  rw [monCosts_at, monCosts_at]
  rw [if_pos (⟨rfl, by omega⟩ : (0 : Nat) = 0 ∧ i - 1 < i),
    if_neg (by omega : ¬ ((0 : Nat) = 0 ∧ i + 1 < i)),
    if_neg (by omega : ¬ ((0 : Nat) = 0 ∧ i + 1 = i))]
  have hle : monV (i - 1) ≤ COST_UNDEF := monV_le (i - 1) (by omega)
  rw [Nat.min_eq_right hle, Nat.min_eq_left hle]

theorem monster_value (i : Nat) (h1 : 1 ≤ i) (hik : i ≤ monK) :
    (computeCellCost monsterMap true (monCosts i) ⟨i, 0⟩).value = monV i := by
  have hM : U32MOD = 4294967296 := rfl
  have hk : monK = 436791 := rfl
  have hU : COST_UNDEF = 4294967295 := rfl
  rw [computeCellCost_value monsterMap true (monCosts i) ⟨i, 0⟩
    (by show i < U32MOD; omega) (by show (0 : Nat) < U32MOD; omega)]
  rw [monster_minFold i h1 hik, monster_t i h1]
  rw [if_pos (show (if i ≤ monM then 10000 else 1) ≠ 0 by split <;> omega)]
  rw [← monV_rec i h1]
  exact Nat.mod_eq_of_lt (by have := monV_le i hik; omega)

theorem monster_enq (i : Nat) (h1 : 1 ≤ i) (hik : i ≤ monK) :
    (computeCellCost monsterMap true (monCosts i) ⟨i, 0⟩).enq = [⟨i + 1, 0⟩] := by
  have hM : U32MOD = 4294967296 := rfl
  have hk : monK = 436791 := rfl
  have hU : COST_UNDEF = 4294967295 := rfl
  have hN2 : monsterMap.width = 436793 := rfl
  have hH2 : monsterMap.height = 1 := rfl
  rw [computeCellCost_enq monsterMap true (monCosts i) ⟨i, 0⟩
    (by show i < U32MOD; omega) (by show (0 : Nat) < U32MOD; omega)]
  rw [monster_nbr i h1 (by omega)]
  rw [enqList_cons, enqList_cons, enqList_cons, enqList_cons, enqList_nil]
  have hCl : monCosts i ⟨i - 1, 0⟩ = monV (i - 1) := by
    rw [monCosts_at]
    exact if_pos ⟨rfl, by omega⟩
  have hCr : monCosts i ⟨i + 1, 0⟩ = COST_UNDEF := by
    rw [monCosts_at]
    rw [if_neg (by omega : ¬ ((0 : Nat) = 0 ∧ i + 1 < i)),
      if_neg (by omega : ¬ ((0 : Nat) = 0 ∧ i + 1 = i))]
  rw [if_neg (show ¬ (true = true ∧ ((⟨i - 1, 0⟩ : Pos).x < monsterMap.width ∧
      (⟨i - 1, 0⟩ : Pos).y < monsterMap.height) ∧
      monCosts i ⟨i - 1, 0⟩ = COST_UNDEF) by
    intro hc
    have h2 := hc.2.2
    rw [hCl] at h2
    have := monV_lt (i - 1) (by omega)
    omega)]
  rw [if_pos (show true = true ∧ ((⟨i + 1, 0⟩ : Pos).x < monsterMap.width ∧
      (⟨i + 1, 0⟩ : Pos).y < monsterMap.height) ∧
      monCosts i ⟨i + 1, 0⟩ = COST_UNDEF from
    ⟨rfl, ⟨by show i + 1 < monsterMap.width; omega,
      by show (0 : Nat) < monsterMap.height; omega⟩, hCr⟩)]
  rw [if_neg (show ¬ (true = true ∧ ((⟨i, U32MOD - 1⟩ : Pos).x < monsterMap.width ∧
      (⟨i, U32MOD - 1⟩ : Pos).y < monsterMap.height) ∧
      monCosts i ⟨i, U32MOD - 1⟩ = COST_UNDEF) by
    intro hc
    have h2 : U32MOD - 1 < monsterMap.height := hc.2.1.2
    omega)]
  rw [if_neg (show ¬ (true = true ∧ ((⟨i, 1⟩ : Pos).x < monsterMap.width ∧
      (⟨i, 1⟩ : Pos).y < monsterMap.height) ∧
      monCosts i ⟨i, 1⟩ = COST_UNDEF) by
    intro hc
    have h2 : (1 : Nat) < monsterMap.height := hc.2.1.2
    omega)]

theorem monster_marks (i : Nat) (h1 : 1 ≤ i) (hik : i ≤ monK) :
    (computeCellCost monsterMap true (monCosts i) ⟨i, 0⟩).costs =
      updF (monCosts i) ⟨i + 1, 0⟩ (COST_UNDEF - 1) := by
  have hM : U32MOD = 4294967296 := rfl
  have hk : monK = 436791 := rfl
  have hU : COST_UNDEF = 4294967295 := rfl
  have hH2 : monsterMap.height = 1 := rfl
  rw [computeCellCost_costs monsterMap true (monCosts i) ⟨i, 0⟩
    (by show i < U32MOD; omega) (by show (0 : Nat) < U32MOD; omega)]
  funext q
  unfold updF
  by_cases hq : q = (⟨i + 1, 0⟩ : Pos)
  · rw [if_pos hq, hq]
    exact if_pos ⟨rfl,
      ⟨by show i + 1 < monsterMap.width
          have hN2 : monsterMap.width = 436793 := rfl
          omega,
        by show (0 : Nat) < monsterMap.height; omega⟩,
      by rw [monster_nbr i h1 (by omega)]
         exact List.mem_cons_of_mem _ (List.mem_cons_self _ _),
      by rw [monCosts_at]
         rw [if_neg (by omega : ¬ ((0 : Nat) = 0 ∧ i + 1 < i)),
           if_neg (by omega : ¬ ((0 : Nat) = 0 ∧ i + 1 = i))]⟩
  · rw [if_neg hq]
    apply if_neg
    intro hcon
    obtain ⟨-, hvq, hmem, hcu⟩ := hcon
    rw [monster_nbr i h1 (by omega)] at hmem
    simp only [List.mem_cons, List.not_mem_nil, or_false] at hmem
    rcases hmem with he | he | he | he
    · rw [he] at hcu
      rw [monCosts_at, if_pos (⟨rfl, by omega⟩ : (0 : Nat) = 0 ∧ i - 1 < i)]
        at hcu
      have := monV_lt (i - 1) (by omega)
      omega
    · exact hq he
    · rw [he] at hvq
      have h2 : U32MOD - 1 < monsterMap.height := hvq.2
      omega
    · rw [he] at hvq
      have h2 : (1 : Nat) < monsterMap.height := hvq.2
      omega

theorem monster_costs_step (i : Nat) :
    updF (updF (monCosts i) ⟨i + 1, 0⟩ (COST_UNDEF - 1)) ⟨i, 0⟩ (monV i) =
      monCosts (i + 1) := by
  funext q
  obtain ⟨qx, qy⟩ := q
  unfold updF
  by_cases h1 : (⟨qx, qy⟩ : Pos) = ⟨i, 0⟩
  · rw [if_pos h1, monCosts_at]
    rw [Pos.mk.injEq] at h1
    rw [if_pos ⟨h1.2, by omega⟩, h1.1]
  · by_cases h2 : (⟨qx, qy⟩ : Pos) = ⟨i + 1, 0⟩
    · rw [if_neg h1, if_pos h2, monCosts_at]
      rw [Pos.mk.injEq] at h2
      rw [if_neg (by omega : ¬ (qy = 0 ∧ qx < i + 1)), if_pos ⟨h2.2, h2.1⟩]
    · rw [if_neg h1, if_neg h2, monCosts_at, monCosts_at]
      rw [Pos.mk.injEq] at h1 h2
      by_cases hy : qy = 0
      · by_cases hx : qx < i
        · rw [if_pos ⟨hy, hx⟩, if_pos ⟨hy, by omega⟩]
        · have hxi : ¬ qx = i := fun he => h1 ⟨he, hy⟩
          have hxi1 : ¬ qx = i + 1 := fun he => h2 ⟨he, hy⟩
          rw [if_neg (by omega : ¬ (qy = 0 ∧ qx < i)),
            if_neg (by omega : ¬ (qy = 0 ∧ qx = i)),
            if_neg (by omega : ¬ (qy = 0 ∧ qx < i + 1)),
            if_neg (by omega : ¬ (qy = 0 ∧ qx = i + 1))]
      · rw [if_neg (fun hc => hy hc.1), if_neg (fun hc => hy hc.1),
          if_neg (fun hc => hy hc.1), if_neg (fun hc => hy hc.1)]

theorem monster_enqCount_step (i : Nat) :
    (fun q => monEnq i q + List.count q [(⟨i + 1, 0⟩ : Pos)]) = monEnq (i + 1) := by
  funext q
  obtain ⟨qx, qy⟩ := q
  show monEnq i ⟨qx, qy⟩ + List.count (⟨qx, qy⟩ : Pos) [⟨i + 1, 0⟩] =
    monEnq (i + 1) ⟨qx, qy⟩
  rw [monEnq_at, monEnq_at, List.count_singleton']
  by_cases hq : (⟨i + 1, 0⟩ : Pos) = ⟨qx, qy⟩
  · rw [if_pos hq]
    rw [Pos.mk.injEq] at hq
    rw [if_neg (by omega : ¬ (qy = 0 ∧ qx ≤ i)),
      if_pos (⟨hq.2.symm, by omega⟩ : qy = 0 ∧ qx ≤ i + 1)]
  · rw [if_neg hq]
    rw [Pos.mk.injEq] at hq
    by_cases hy : qy = 0
    · by_cases hx : qx ≤ i
      · rw [if_pos ⟨hy, hx⟩, if_pos ⟨hy, by omega⟩]
      · rw [if_neg (by omega : ¬ (qy = 0 ∧ qx ≤ i)),
          if_neg (show ¬ (qy = 0 ∧ qx ≤ i + 1) by
            intro hc
            exact hq ⟨by omega, by omega⟩)]
    · rw [if_neg (fun hc => hy hc.1), if_neg (fun hc => hy hc.1)]

/-- The generic chain step: processing cell i settles it at its accumulated
cost and enqueues cell i plus 1. -/
theorem monster_step_mid (i : Nat) (h1 : 1 ≤ i) (hik : i ≤ monK) :
    step monsterMap ⟨monCosts i, [⟨i, 0⟩], monEnq i⟩ =
      ⟨monCosts (i + 1), [⟨i + 1, 0⟩], monEnq (i + 1)⟩ := by
  rw [step_cons monsterMap ⟨monCosts i, [⟨i, 0⟩], monEnq i⟩ ⟨i, 0⟩ [] rfl]
  show (⟨updF (computeCellCost monsterMap true (monCosts i) ⟨i, 0⟩).costs ⟨i, 0⟩
      (computeCellCost monsterMap true (monCosts i) ⟨i, 0⟩).value,
    [] ++ (computeCellCost monsterMap true (monCosts i) ⟨i, 0⟩).enq,
    fun q => monEnq i q +
      List.count q (computeCellCost monsterMap true (monCosts i) ⟨i, 0⟩).enq⟩ :
    RunState) = _
  rw [monster_value i h1 hik, monster_enq i h1 hik, monster_marks i h1 hik,
    monster_costs_step i, List.nil_append, monster_enqCount_step i]

theorem monster_value0 :
    (computeCellCost monsterMap true initialCosts ⟨0, 0⟩).value = 0 := by
  have hM : U32MOD = 4294967296 := rfl
  rw [computeCellCost_value monsterMap true initialCosts ⟨0, 0⟩
    (by show (0 : Nat) < U32MOD; omega) (by show (0 : Nat) < U32MOD; omega)]
  have hs : soilCost (monsterMap.soils ⟨0, 0⟩) = 0 := rfl
  rw [hs, if_neg (show ¬ (0 : Nat) ≠ 0 from fun h => h rfl)]

theorem monster_enq0 :
    (computeCellCost monsterMap true initialCosts ⟨0, 0⟩).enq = [⟨1, 0⟩] := by
  have hM : U32MOD = 4294967296 := rfl
  have hW : monsterMap.width = 436793 := rfl
  have hH : monsterMap.height = 1 := rfl
  rw [computeCellCost_enq monsterMap true initialCosts ⟨0, 0⟩
    (by show (0 : Nat) < U32MOD; omega) (by show (0 : Nat) < U32MOD; omega)]
  rw [monster_nbr0]
  rw [enqList_cons, enqList_cons, enqList_cons, enqList_cons, enqList_nil]
  rw [if_neg (show ¬ (true = true ∧ ((⟨U32MOD - 1, 0⟩ : Pos).x < monsterMap.width ∧
      (⟨U32MOD - 1, 0⟩ : Pos).y < monsterMap.height) ∧
      initialCosts ⟨U32MOD - 1, 0⟩ = COST_UNDEF) by
    intro hc
    have h2 : U32MOD - 1 < monsterMap.width := hc.2.1.1
    omega)]
  rw [if_pos (show true = true ∧ ((⟨1, 0⟩ : Pos).x < monsterMap.width ∧
      (⟨1, 0⟩ : Pos).y < monsterMap.height) ∧
      initialCosts ⟨1, 0⟩ = COST_UNDEF from
    ⟨rfl, ⟨by show (1 : Nat) < monsterMap.width; omega,
      by show (0 : Nat) < monsterMap.height; omega⟩, rfl⟩)]
  rw [if_neg (show ¬ (true = true ∧ ((⟨0, U32MOD - 1⟩ : Pos).x < monsterMap.width ∧
      (⟨0, U32MOD - 1⟩ : Pos).y < monsterMap.height) ∧
      initialCosts ⟨0, U32MOD - 1⟩ = COST_UNDEF) by
    intro hc
    have h2 : U32MOD - 1 < monsterMap.height := hc.2.1.2
    omega)]
  rw [if_neg (show ¬ (true = true ∧ ((⟨0, 1⟩ : Pos).x < monsterMap.width ∧
      (⟨0, 1⟩ : Pos).y < monsterMap.height) ∧
      initialCosts ⟨0, 1⟩ = COST_UNDEF) by
    intro hc
    have h2 : (1 : Nat) < monsterMap.height := hc.2.1.2
    omega)]

theorem monster_marks0 :
    (computeCellCost monsterMap true initialCosts ⟨0, 0⟩).costs =
      updF initialCosts ⟨1, 0⟩ (COST_UNDEF - 1) := by
  have hM : U32MOD = 4294967296 := rfl
  have hW : monsterMap.width = 436793 := rfl
  have hH : monsterMap.height = 1 := rfl
  rw [computeCellCost_costs monsterMap true initialCosts ⟨0, 0⟩
    (by show (0 : Nat) < U32MOD; omega) (by show (0 : Nat) < U32MOD; omega)]
  funext q
  unfold updF
  by_cases hq : q = (⟨1, 0⟩ : Pos)
  · rw [if_pos hq, hq]
    exact if_pos ⟨rfl,
      ⟨by show (1 : Nat) < monsterMap.width; omega,
        by show (0 : Nat) < monsterMap.height; omega⟩,
      by rw [monster_nbr0]
         exact List.mem_cons_of_mem _ (List.mem_cons_self _ _), rfl⟩
  · rw [if_neg hq]
    apply if_neg
    intro hcon
    obtain ⟨-, hvq, hmem, -⟩ := hcon
    rw [monster_nbr0] at hmem
    simp only [List.mem_cons, List.not_mem_nil, or_false] at hmem
    rcases hmem with he | he | he | he
    · rw [he] at hvq
      have h2 : U32MOD - 1 < monsterMap.width := hvq.1
      omega
    · exact hq he
    · rw [he] at hvq
      have h2 : U32MOD - 1 < monsterMap.height := hvq.2
      omega
    · rw [he] at hvq
      have h2 : (1 : Nat) < monsterMap.height := hvq.2
      omega

theorem monster_costs0 :
    updF (updF initialCosts ⟨1, 0⟩ (COST_UNDEF - 1)) ⟨0, 0⟩ 0 = monCosts 1 := by
  have hmv : monV 0 = 0 := by simp [monV]
  funext q
  obtain ⟨qx, qy⟩ := q
  unfold updF
  by_cases h0 : (⟨qx, qy⟩ : Pos) = ⟨0, 0⟩
  · rw [if_pos h0, monCosts_at]
    rw [Pos.mk.injEq] at h0
    rw [if_pos (⟨h0.2, by omega⟩ : qy = 0 ∧ qx < 1), h0.1, hmv]
  · rw [if_neg h0]
    by_cases h1 : (⟨qx, qy⟩ : Pos) = ⟨1, 0⟩
    · rw [if_pos h1, monCosts_at]
      rw [Pos.mk.injEq] at h1
      rw [if_neg (by omega : ¬ (qy = 0 ∧ qx < 1)), if_pos ⟨h1.2, h1.1⟩]
    · rw [if_neg h1, monCosts_at]
      rw [Pos.mk.injEq] at h0 h1
      rw [if_neg (show ¬ (qy = 0 ∧ qx < 1) by
          intro hc
          exact h0 ⟨by omega, hc.1⟩),
        if_neg (show ¬ (qy = 0 ∧ qx = 1) by
          intro hc
          exact h1 ⟨hc.2, hc.1⟩)]
      rfl

theorem monster_enqCount0 :
    (fun q => (if q = getBaseStationPos monsterMap then (1 : Nat) else 0) +
      List.count q [(⟨1, 0⟩ : Pos)]) = monEnq 1 := by
  funext q
  obtain ⟨qx, qy⟩ := q
  show (if (⟨qx, qy⟩ : Pos) = getBaseStationPos monsterMap then (1 : Nat) else 0) +
    List.count (⟨qx, qy⟩ : Pos) [(⟨1, 0⟩ : Pos)] = monEnq 1 ⟨qx, qy⟩
  rw [monster_base, List.count_singleton', monEnq_at]
  by_cases h0 : (⟨qx, qy⟩ : Pos) = ⟨0, 0⟩
  · rw [if_pos h0]
    rw [Pos.mk.injEq] at h0
    rw [if_neg (show ¬ (⟨1, 0⟩ : Pos) = ⟨qx, qy⟩ by
        rw [Pos.mk.injEq]
        omega),
      if_pos (⟨h0.2, by omega⟩ : qy = 0 ∧ qx ≤ 1)]
  · rw [if_neg h0]
    rw [Pos.mk.injEq] at h0
    by_cases h1 : (⟨1, 0⟩ : Pos) = (⟨qx, qy⟩ : Pos)
    · rw [if_pos h1]
      rw [Pos.mk.injEq] at h1
      rw [if_pos (⟨h1.2.symm, by omega⟩ : qy = 0 ∧ qx ≤ 1)]
    · rw [if_neg h1]
      rw [Pos.mk.injEq] at h1
      rw [if_neg (show ¬ (qy = 0 ∧ qx ≤ 1) by
        intro hc
        rcases Nat.lt_or_ge qx 1 with hx | hx
        · exact h0 ⟨by omega, hc.1⟩
        · exact h1 ⟨by omega, hc.1.symm⟩)]

theorem monster_step0 :
    step monsterMap (initState monsterMap) = ⟨monCosts 1, [⟨1, 0⟩], monEnq 1⟩ := by
  have hq : (initState monsterMap).queue = (⟨0, 0⟩ : Pos) :: [] := by
    show [getBaseStationPos monsterMap] = _
    rw [monster_base]
  rw [step_cons monsterMap (initState monsterMap) ⟨0, 0⟩ [] hq]
  show (⟨updF (computeCellCost monsterMap true initialCosts ⟨0, 0⟩).costs ⟨0, 0⟩
      (computeCellCost monsterMap true initialCosts ⟨0, 0⟩).value,
    [] ++ (computeCellCost monsterMap true initialCosts ⟨0, 0⟩).enq,
    fun q => (if q = getBaseStationPos monsterMap then (1 : Nat) else 0) +
      List.count q (computeCellCost monsterMap true initialCosts ⟨0, 0⟩).enq⟩ :
    RunState) = _
  rw [monster_value0, monster_enq0, monster_marks0, monster_costs0,
    List.nil_append, monster_enqCount0]

theorem monster_chain :
    ∀ i : Nat, 1 ≤ i → i ≤ monK + 1 →
      stepN monsterMap i (initState monsterMap) =
        ⟨monCosts i, [⟨i, 0⟩], monEnq i⟩ := by
  intro i
  induction i with
  | zero => intro h1 _; omega
  | succ n ih =>
    intro _ hle
    by_cases hn : n = 0
    · subst hn
      exact monster_step0
    · have h1n : 1 ≤ n := by omega
      have hnk : n ≤ monK := by omega
      rw [stepN_succ_back, ih h1n (by omega), monster_step_mid n h1n hnk]

theorem monster_enq_last :
    (computeCellCost monsterMap true (monCosts (monK + 1)) ⟨monK + 1, 0⟩).enq =
      [⟨monK, 0⟩] := by
  have hM : U32MOD = 4294967296 := rfl
  have hk : monK = 436791 := rfl
  have hU : COST_UNDEF = 4294967295 := rfl
  have hW : monsterMap.width = 436793 := rfl
  have hH : monsterMap.height = 1 := rfl
  rw [computeCellCost_enq monsterMap true (monCosts (monK + 1)) ⟨monK + 1, 0⟩
    (by show monK + 1 < U32MOD; omega) (by show (0 : Nat) < U32MOD; omega)]
  rw [monster_nbr (monK + 1) (by omega) (by omega)]
  have he1 : monK + 1 - 1 = monK := rfl
  rw [he1]
  rw [enqList_cons, enqList_cons, enqList_cons, enqList_cons, enqList_nil]
  have hCk : monCosts (monK + 1) ⟨monK, 0⟩ = COST_UNDEF := by
    rw [monCosts_at, if_pos (⟨rfl, by omega⟩ : (0 : Nat) = 0 ∧ monK < monK + 1)]
    exact monV_K
  rw [if_pos (show true = true ∧ ((⟨monK, 0⟩ : Pos).x < monsterMap.width ∧
      (⟨monK, 0⟩ : Pos).y < monsterMap.height) ∧
      monCosts (monK + 1) ⟨monK, 0⟩ = COST_UNDEF from
    ⟨rfl, ⟨by show monK < monsterMap.width; omega,
      by show (0 : Nat) < monsterMap.height; omega⟩, hCk⟩)]
  rw [if_neg (show ¬ (true = true ∧
      ((⟨monK + 1 + 1, 0⟩ : Pos).x < monsterMap.width ∧
      (⟨monK + 1 + 1, 0⟩ : Pos).y < monsterMap.height) ∧
      monCosts (monK + 1) ⟨monK + 1 + 1, 0⟩ = COST_UNDEF) by
    intro hc
    have h2 : monK + 1 + 1 < monsterMap.width := hc.2.1.1
    omega)]
  rw [if_neg (show ¬ (true = true ∧
      ((⟨monK + 1, U32MOD - 1⟩ : Pos).x < monsterMap.width ∧
      (⟨monK + 1, U32MOD - 1⟩ : Pos).y < monsterMap.height) ∧
      monCosts (monK + 1) ⟨monK + 1, U32MOD - 1⟩ = COST_UNDEF) by
    intro hc
    have h2 : U32MOD - 1 < monsterMap.height := hc.2.1.2
    omega)]
  rw [if_neg (show ¬ (true = true ∧
      ((⟨monK + 1, 1⟩ : Pos).x < monsterMap.width ∧
      (⟨monK + 1, 1⟩ : Pos).y < monsterMap.height) ∧
      monCosts (monK + 1) ⟨monK + 1, 1⟩ = COST_UNDEF) by
    intro hc
    have h2 : (1 : Nat) < monsterMap.height := hc.2.1.2
    omega)]

theorem monster_final :
    (stepN monsterMap monN (initState monsterMap)).queue = [⟨monK, 0⟩] ∧
    (stepN monsterMap monN (initState monsterMap)).enqCount ⟨monK, 0⟩ = 2 := by
  have hk : monK = 436791 := rfl
  have hc := monster_chain (monK + 1) (by omega) (by omega)
  have hmonN : monN = (monK + 1) + 1 := rfl
  rw [hmonN, stepN_succ_back, hc]
  rw [step_cons monsterMap
    ⟨monCosts (monK + 1), [⟨monK + 1, 0⟩], monEnq (monK + 1)⟩ ⟨monK + 1, 0⟩ [] rfl]
  constructor
  · show [] ++
      (computeCellCost monsterMap true (monCosts (monK + 1)) ⟨monK + 1, 0⟩).enq = _
    rw [monster_enq_last, List.nil_append]
  · show monEnq (monK + 1) ⟨monK, 0⟩ + List.count (⟨monK, 0⟩ : Pos)
      (computeCellCost monsterMap true (monCosts (monK + 1)) ⟨monK + 1, 0⟩).enq = 2
    rw [monster_enq_last, monEnq_at,
      if_pos (⟨rfl, by omega⟩ : (0 : Nat) = 0 ∧ monK ≤ monK + 1),
      List.count_singleton', if_pos rfl]

/-- C3: counterexample.  The claim says each grid cell is enqueued at most
once per propagation run, guarded by the pending sentinel mark.  On the
wrap-around chain map the accumulated cost of cell (monK, 0) is exactly
COST_UNDEF, so after it settles it is indistinguishable from an unvisited
cell: when its right neighbour is processed, cell (monK, 0) is enqueued a
second time, and its ghost enqueue counter reaches 2. -/
theorem C3_counterexample :
    (∃ p : Pos, posValid p monsterMap.width monsterMap.height ∧
      monsterMap.soils p = Soil.BASE_STATION) ∧
    posValid (⟨monK, 0⟩ : Pos) monsterMap.width monsterMap.height ∧
    (computeCostsRun monsterMap monN).enqCount ⟨monK, 0⟩ = 2 := by
  have hM : U32MOD = 4294967296 := rfl
  have hk : monK = 436791 := rfl
  have hW : monsterMap.width = 436793 := rfl
  have hH : monsterMap.height = 1 := rfl
  have hb : ∃ p : Pos, posValid p monsterMap.width monsterMap.height ∧
      monsterMap.soils p = Soil.BASE_STATION :=
    ⟨⟨0, 0⟩, ⟨by show (0 : Nat) < monsterMap.width; omega,
      by show (0 : Nat) < monsterMap.height; omega⟩, rfl⟩
  refine ⟨hb, ⟨by show monK < monsterMap.width; omega,
    by show (0 : Nat) < monsterMap.height; omega⟩, ?_⟩
  rw [computeCostsRun_eq_stepN monsterMap monN (by omega) (by omega) hb]
  exact monster_final.2

/-- C4: counterexample.  The claim says that on every grid with an origin the
propagation loop performs at most width times height dequeues.  On the
wrap-around chain map (width times height equals monN) the queue still holds
the re-enqueued cell (monK, 0) after monN dequeues, so the loop must dequeue
more than width times height times. -/
theorem C4_counterexample :
    (∃ p : Pos, posValid p monsterMap.width monsterMap.height ∧
      monsterMap.soils p = Soil.BASE_STATION) ∧
    monsterMap.width * monsterMap.height = monN ∧
    (computeCostsRun monsterMap monN).queue = [⟨monK, 0⟩] := by
  have hM : U32MOD = 4294967296 := rfl
  have hW : monsterMap.width = 436793 := rfl
  have hH : monsterMap.height = 1 := rfl
  have hb : ∃ p : Pos, posValid p monsterMap.width monsterMap.height ∧
      monsterMap.soils p = Soil.BASE_STATION :=
    ⟨⟨0, 0⟩, ⟨by show (0 : Nat) < monsterMap.width; omega,
      by show (0 : Nat) < monsterMap.height; omega⟩, rfl⟩
  refine ⟨hb, by rw [hW, hH]; rfl, ?_⟩
  rw [computeCostsRun_eq_stepN monsterMap monN (by omega) (by omega) hb]
  exact monster_final.1

/-! Manhattan-distance geometry on the bounded grid, toward the amended
claim C7. -/

theorem updF_eq_self (f : Pos → Nat) (p : Pos) (v : Nat) (h : f p = v) :
    updF f p v = f := by
  funext q
  unfold updF
  by_cases hq : q = p
  · rw [if_pos hq, hq, h]
  · rw [if_neg hq]

theorem manhattan_self (p : Pos) : manhattan p p = 0 := by
  unfold manhattan
  rw [Nat.dist_self, Nat.dist_self]

theorem manhattan_eq_zero (p b : Pos) : manhattan p b = 0 ↔ p = b := by
  obtain ⟨px, py⟩ := p
  obtain ⟨bx, b2⟩ := b
  simp only [manhattan, Nat.dist, Pos.mk.injEq]
  omega

theorem manhattan_lt (m : Map) (p b : Pos)
    (hp : posValid p m.width m.height) (hb : posValid b m.width m.height)
    (hsmall : m.width + m.height < COST_UNDEF - 1) :
    manhattan p b < COST_UNDEF - 1 := by
  obtain ⟨px, py⟩ := p
  obtain ⟨bx, b2⟩ := b
  have h1 : px < m.width := hp.1
  have h2 : py < m.height := hp.2
  have h3 : bx < m.width := hb.1
  have h4 : b2 < m.height := hb.2
  simp only [manhattan, Nat.dist]
  omega

theorem manhattan_adj (m : Map) (b p n : Pos)
    (hp : posValid p m.width m.height) (hn : posValid n m.width m.height)
    (hw : m.width < U32MOD) (hh : m.height < U32MOD)
    (hmem : n ∈ neighborList p) :
    manhattan n b = manhattan p b + 1 ∨ manhattan p b = manhattan n b + 1 := by
  have hM : U32MOD = 4294967296 := rfl
  rw [hM] at hw hh
  obtain ⟨px, py⟩ := p
  obtain ⟨nx, ny⟩ := n
  obtain ⟨bx, b2⟩ := b
  have hpx : px < m.width := hp.1
  have hpy : py < m.height := hp.2
  have hnx : nx < m.width := hn.1
  have hny : ny < m.height := hn.2
  simp only [neighborList, List.mem_cons, List.not_mem_nil, or_false,
    Pos.mk.injEq, hM] at hmem
  simp only [manhattan, Nat.dist]
  rcases hmem with ⟨h1, h2⟩ | ⟨h1, h2⟩ | ⟨h1, h2⟩ | ⟨h1, h2⟩ <;> omega

theorem toward_origin (m : Map) (b p : Pos)
    (hb : posValid b m.width m.height) (hp : posValid p m.width m.height)
    (hw : m.width < U32MOD) (hh : m.height < U32MOD)
    (h1 : 1 ≤ manhattan p b) :
    ∃ n, n ∈ neighborList p ∧ posValid n m.width m.height ∧
      manhattan n b + 1 = manhattan p b := by
  have hM : U32MOD = 4294967296 := rfl
  rw [hM] at hw hh
  obtain ⟨px, py⟩ := p
  obtain ⟨bx, b2⟩ := b
  have hpx : px < m.width := hp.1
  have hpy : py < m.height := hp.2
  have hbx : bx < m.width := hb.1
  have hby : b2 < m.height := hb.2
  rcases Nat.lt_trichotomy px bx with hx | hx | hx
  · refine ⟨⟨px + 1, py⟩, ?_, ⟨by show px + 1 < m.width; omega, hpy⟩, ?_⟩
    · simp only [neighborList, List.mem_cons, Pos.mk.injEq, hM]
      right; left
      exact ⟨by omega, trivial⟩
    · simp only [manhattan, Nat.dist]
      omega
  · rcases Nat.lt_trichotomy py b2 with hy | hy | hy
    · refine ⟨⟨px, py + 1⟩, ?_, ⟨hpx, by show py + 1 < m.height; omega⟩, ?_⟩
      · simp only [neighborList, List.mem_cons, Pos.mk.injEq, hM]
        right; right; right; left
        exact ⟨trivial, by omega⟩
      · simp only [manhattan, Nat.dist]
        omega
    · exfalso
      have h0 : manhattan ⟨px, py⟩ ⟨bx, b2⟩ = 0 := by
        simp only [manhattan, Nat.dist]
        omega
      omega
    · refine ⟨⟨px, py - 1⟩, ?_, ⟨hpx, by show py - 1 < m.height; omega⟩, ?_⟩
      · simp only [neighborList, List.mem_cons, Pos.mk.injEq, hM]
        right; right; left
        exact ⟨trivial, by omega⟩
      · simp only [manhattan, Nat.dist]
        omega
  · refine ⟨⟨px - 1, py⟩, ?_, ⟨by show px - 1 < m.width; omega, hpy⟩, ?_⟩
    · simp only [neighborList, List.mem_cons, Pos.mk.injEq, hM]
      left
      exact ⟨by omega, trivial⟩
    · simp only [manhattan, Nat.dist]
      omega

theorem exists_at_dist (m : Map) (b : Pos)
    (hb : posValid b m.width m.height)
    (hw : m.width < U32MOD) (hh : m.height < U32MOD) :
    ∀ (k : Nat) (p : Pos), posValid p m.width m.height → manhattan p b = k →
      ∀ e, e ≤ k → ∃ q, posValid q m.width m.height ∧ manhattan q b = e := by
  intro k
  induction k with
  | zero =>
    intro p hp hd e he
    exact ⟨p, hp, by omega⟩
  | succ k ih =>
    intro p hp hd e he
    by_cases hek : e = k + 1
    · exact ⟨p, hp, by omega⟩
    · obtain ⟨n, -, hnv, hnd⟩ := toward_origin m b p hb hp hw hh (by omega)
      exact ih n hnv (by omega) e (by omega)

theorem minFold_ge (m : Map) (costs : Pos → Nat) (v : Nat) :
    ∀ (l : List Pos) (a : Nat),
      (∀ q ∈ l, q.x < m.width ∧ q.y < m.height → v ≤ costs q) →
      v ≤ a → v ≤ minFold m costs l a := by
  intro l
  induction l with
  | nil => intro a _ ha; exact ha
  | cons q r ih =>
    intro a hq ha
    by_cases hv : q.x < m.width ∧ q.y < m.height
    · rw [minFold_cons_valid _ _ _ _ _ hv]
      exact ih _ (fun x hx hvx => hq x (List.mem_cons_of_mem _ hx) hvx)
        (le_min ha (hq q (List.mem_cons_self _ _) hv))
    · rw [minFold_cons_invalid _ _ _ _ _ hv]
      exact ih _ (fun x hx hvx => hq x (List.mem_cons_of_mem _ hx) hvx) ha

theorem enqList_mem_of (m : Map) (costs : Pos → Nat) :
    ∀ (l : List Pos) (q : Pos), q ∈ l → (q.x < m.width ∧ q.y < m.height) →
      costs q = COST_UNDEF → q ∈ enqList m true costs l := by
  intro l
  induction l with
  | nil => intro q hq _ _; exact absurd hq (List.not_mem_nil q)
  | cons p r ih =>
    intro q hq hv hc
    rw [enqList_cons]
    rcases List.mem_cons.mp hq with he | hm
    · rw [if_pos (show true = true ∧ (p.x < m.width ∧ p.y < m.height) ∧
          costs p = COST_UNDEF from ⟨rfl, by rw [← he]; exact hv,
          by rw [← he]; exact hc⟩)]
      rw [he]
      exact List.mem_cons_self _ _
    · by_cases hcond : true = true ∧ (p.x < m.width ∧ p.y < m.height) ∧
          costs p = COST_UNDEF
      · rw [if_pos hcond]
        exact List.mem_cons_of_mem _ (ih q hm hv hc)
      · rw [if_neg hcond]
        exact ih q hm hv hc

theorem base_pos_unique (m : Map) (b : Pos)
    (hb : posValid b m.width m.height) (hbase : m.soils b = Soil.BASE_STATION)
    (hplain : ∀ p : Pos, posValid p m.width m.height → p ≠ b →
      m.soils p = Soil.PLAIN) :
    getBaseStationPos m = b := by
  obtain ⟨hv, hs, -⟩ := getBaseStationPos_spec m ⟨b, hb, hbase⟩
  by_contra hne
  rw [hplain _ hv hne] at hs
  exact Soil.noConfusion hs

/-- Processing the origin establishes the layer invariant at depth 1, with
exactly one settled cell. -/
theorem LInv_start (m : Map) (b : Pos)
    (hb : posValid b m.width m.height)
    (hbase : m.soils b = Soil.BASE_STATION)
    (hplain : ∀ p : Pos, posValid p m.width m.height → p ≠ b →
      m.soils p = Soil.PLAIN)
    (hsmall : m.width + m.height < COST_UNDEF - 1) :
    LInv m b (step m (initState m)) ∧
    settledCount m (step m (initState m)).costs = 1 := by
  have hU : COST_UNDEF = 4294967295 := rfl
  have hM : U32MOD = 4294967296 := rfl
  have hw : m.width < U32MOD := by omega
  have hh : m.height < U32MOD := by omega
  have hbx : b.x < U32MOD := by have := hb.1; omega
  have hby : b.y < U32MOD := by have := hb.2; omega
  have hgb : getBaseStationPos m = b := base_pos_unique m b hb hbase hplain
  have hq : (initState m).queue = b :: [] := by
    show [getBaseStationPos m] = _
    rw [hgb]
  have hvb : (computeCellCost m true initialCosts b).value = 0 := by
    rw [computeCellCost_value m true initialCosts b hbx hby, hbase]
    have hz : soilCost Soil.BASE_STATION = 0 := rfl
    rw [hz, if_neg (show ¬ (0 : Nat) ≠ 0 from fun h => h rfl)]
  have hc1 : (step m (initState m)).costs = fun q =>
      if q = b then 0
      else if (q.x < m.width ∧ q.y < m.height) ∧ q ∈ neighborList b
      then COST_UNDEF - 1 else COST_UNDEF := by
    rw [step_cons m (initState m) b [] hq]
    show updF (computeCellCost m true initialCosts b).costs b
      (computeCellCost m true initialCosts b).value = _
    rw [computeCellCost_costs m true initialCosts b hbx hby, hvb]
    funext q
    show (if q = b then (0 : Nat)
        else if true = true ∧ (q.x < m.width ∧ q.y < m.height) ∧
          q ∈ neighborList b ∧ initialCosts q = COST_UNDEF
        then COST_UNDEF - 1 else initialCosts q) = _
    by_cases hqb : q = b
    · rw [if_pos hqb, if_pos hqb]
    · rw [if_neg hqb, if_neg hqb]
      by_cases hcond : (q.x < m.width ∧ q.y < m.height) ∧ q ∈ neighborList b
      · rw [if_pos (⟨rfl, hcond.1, hcond.2, rfl⟩ :
          true = true ∧ (q.x < m.width ∧ q.y < m.height) ∧
            q ∈ neighborList b ∧ initialCosts q = COST_UNDEF), if_pos hcond]
      · rw [if_neg (fun hcon => hcond ⟨hcon.2.1, hcon.2.2.1⟩), if_neg hcond]
        rfl
  have hq1 : (step m (initState m)).queue =
      enqList m true initialCosts (neighborList b) := by
    rw [step_cons m (initState m) b [] hq]
    show [] ++ (computeCellCost m true initialCosts b).enq = _
    rw [computeCellCost_enq m true initialCosts b hbx hby, List.nil_append]
  have hmemE : ∀ p : Pos, p ∈ (step m (initState m)).queue ↔
      p ∈ neighborList b ∧ (p.x < m.width ∧ p.y < m.height) := by
    intro p
    rw [hq1]
    constructor
    · intro h
      have h2 := enqList_mem m true initialCosts _ p h
      exact ⟨h2.1, h2.2.1⟩
    · intro h
      exact enqList_mem_of m initialCosts _ p h.1 h.2 rfl
  have hadj1 : ∀ p : Pos, posValid p m.width m.height → p ∈ neighborList b →
      manhattan p b = 1 := by
    intro p hpv hpm
    rcases manhattan_adj m b b p hb hpv hw hh hpm with h | h
    · rw [manhattan_self] at h
      omega
    · rw [manhattan_self] at h
      omega
  have hdist1 : ∀ p : Pos, posValid p m.width m.height → manhattan p b = 1 →
      p ∈ neighborList b := by
    intro p hpv hpd
    obtain ⟨n, hnm, hnv, hnd⟩ := toward_origin m b p hb hpv hw hh (by omega)
    have hnb : n = b := (manhattan_eq_zero n b).mp (by omega)
    rw [hnb] at hnm
    exact neighbor_symm m p b hpv hb hw hh hnm
  refine ⟨⟨1, (step m (initState m)).queue, [], ?_⟩, ?_⟩
  · unfold LInvAt
    refine ⟨le_refl 1, (List.append_nil _).symm, ?_, ?_, ?_, ?_, ?_, ?_, ?_, ?_⟩
    · rw [List.append_nil, hq1]
      exact enqList_nodup m true initialCosts _ (neighborList_nodup b hbx hby)
    · intro p hp
      have h2 := (hmemE p).mp hp
      have hpv : posValid p m.width m.height := ⟨h2.2.1, h2.2.2⟩
      refine ⟨hpv, hadj1 p hpv h2.1, ?_⟩
      have hpb : p ≠ b := by
        intro he
        have hd := hadj1 p hpv h2.1
        rw [he, manhattan_self] at hd
        omega
      simp only [hc1]
      rw [if_neg hpb, if_pos ⟨h2.2, h2.1⟩]
    · intro p hp
      exact absurd hp (List.not_mem_nil p)
    · intro p hpv hd
      have hpb : p = b := (manhattan_eq_zero p b).mp (by omega)
      simp only [hc1]
      rw [if_pos hpb, hpb, manhattan_self]
    · intro p hpv hd
      right
      exact (hmemE p).mpr ⟨hdist1 p hpv hd, hpv.1, hpv.2⟩
    · intro p hpv hd
      constructor
      · intro h
        exact absurd h (List.not_mem_nil p)
      · rintro ⟨n, hnm, hnv, hnd, hnc⟩
        exfalso
        have hnb : n ≠ b := by
          intro he
          rw [he, manhattan_self] at hnd
          omega
        have hnmem : n ∈ neighborList b := hdist1 n hnv hnd
        simp only [hc1] at hnc
        rw [if_neg hnb, if_pos ⟨⟨hnv.1, hnv.2⟩, hnmem⟩] at hnc
        omega
    · intro p hpv hd hnin
      have hpb : p ≠ b := by
        intro he
        rw [he, manhattan_self] at hd
        omega
      simp only [hc1]
      rw [if_neg hpb, if_neg]
      intro hcon
      have hd1 := hadj1 p hpv hcon.2
      omega
    · intro p hpv hd
      have hpb : p ≠ b := by
        intro he
        rw [he, manhattan_self] at hd
        omega
      simp only [hc1]
      rw [if_neg hpb, if_neg]
      intro hcon
      have hd1 := hadj1 p hpv hcon.2
      omega
  · simp only [hc1]
    have hcg : settledCount m (fun q =>
        if q = b then (0 : Nat)
        else if (q.x < m.width ∧ q.y < m.height) ∧ q ∈ neighborList b
        then COST_UNDEF - 1 else COST_UNDEF) =
        settledCount m (updF initialCosts b 0) := by
      apply settledCount_congr
      intro p hpv
      simp only [updF]
      by_cases hpb : p = b
      · rw [if_pos hpb, if_pos hpb]
      · rw [if_neg hpb, if_neg hpb]
        by_cases hcond : (p.x < m.width ∧ p.y < m.height) ∧ p ∈ neighborList b
        · rw [if_pos hcond]
          show COST_UNDEF - 1 < COST_UNDEF - 1 ↔ initialCosts p < COST_UNDEF - 1
          have hip : initialCosts p = COST_UNDEF := rfl
          rw [hip]
          omega
        · rw [if_neg hcond]
          exact Iff.rfl
    rw [hcg, settledCount_insert m initialCosts b 0 hb
      (by have hip : initialCosts b = COST_UNDEF := rfl; omega) (by omega),
      settledCount_initial]

/-- When the distance-d slice of the queue has been exhausted, the same state
satisfies the layer invariant at depth d plus 1. -/
theorem LInvAt_shift (m : Map) (b : Pos) (s : RunState)
    (hb : posValid b m.width m.height)
    (hsmall : m.width + m.height < COST_UNDEF - 1)
    (d : Nat) (q2 : List Pos)
    (hI : LInvAt m b s d [] q2) :
    LInvAt m b s (d + 1) q2 [] := by
  obtain ⟨hd1, hq, hnd, hq1, hq2, hlt, heq, hiff, hu2, hfar⟩ := hI
  have hU : COST_UNDEF = 4294967295 := rfl
  have hM : U32MOD = 4294967296 := rfl
  have hw : m.width < U32MOD := by omega
  have hh : m.height < U32MOD := by omega
  have hsetd : ∀ p : Pos, posValid p m.width m.height → manhattan p b = d →
      s.costs p = d := by
    intro p hp hd
    rcases heq p hp hd with h | h
    · exact h
    · exact absurd h (List.not_mem_nil p)
  have hset : ∀ p : Pos, posValid p m.width m.height → manhattan p b < d + 1 →
      s.costs p = manhattan p b := by
    intro p hp hd
    rcases Nat.lt_or_ge (manhattan p b) d with h | h
    · exact hlt p hp h
    · have he : manhattan p b = d := by omega
      rw [he]
      exact hsetd p hp he
  have hq3 : s.queue = q2 ++ [] := by
    rw [List.append_nil]
    rw [List.nil_append] at hq
    exact hq
  refine ⟨by omega, hq3, ?_, hq2, ?_, hset, ?_, ?_, ?_, ?_⟩
  · rw [List.append_nil]
    rw [List.nil_append] at hnd
    exact hnd
  · intro p hp
    exact absurd hp (List.not_mem_nil p)
  · intro p hpv hd
    right
    obtain ⟨n, hnm, hnv, hnd⟩ := toward_origin m b p hb hpv hw hh (by omega)
    exact (hiff p hpv hd).mpr ⟨n, hnm, hnv, by omega,
      hsetd n hnv (by omega)⟩
  · intro p hpv hd
    constructor
    · intro h
      exact absurd h (List.not_mem_nil p)
    · rintro ⟨n, hnm, hnv, hnd, hnc⟩
      exfalso
      have hnlt := manhattan_lt m n b hnv hb hsmall
      by_cases hn2 : n ∈ q2
      · have hp2 := (hq2 n hn2).2.2
        omega
      · have hu := hu2 n hnv (by omega) hn2
        omega
  · intro p hpv hd hnin
    exact hfar p hpv (by omega)
  · intro p hpv hd
    exact hfar p hpv (by omega)

/-- Dequeuing the head of the distance-d slice settles it at cost d, keeps
the layer invariant, and settles exactly one new cell. -/
theorem LInvAt_process (m : Map) (b : Pos) (s : RunState)
    (hb : posValid b m.width m.height)
    (hplain : ∀ p : Pos, posValid p m.width m.height → p ≠ b →
      m.soils p = Soil.PLAIN)
    (hsmall : m.width + m.height < COST_UNDEF - 1)
    (d : Nat) (c : Pos) (t q2 : List Pos)
    (hI : LInvAt m b s d (c :: t) q2) :
    LInv m b (step m s) ∧
    settledCount m (step m s).costs = settledCount m s.costs + 1 := by
  obtain ⟨hd1, hq, hnd, hq1, hq2, hlt, heq, hiff, hu2, hfar⟩ := hI
  have hU : COST_UNDEF = 4294967295 := rfl
  have hM : U32MOD = 4294967296 := rfl
  have hw : m.width < U32MOD := by omega
  have hh : m.height < U32MOD := by omega
  obtain ⟨hcv, hcd, hcp⟩ := hq1 c (List.mem_cons_self c t)
  have hcb : c ≠ b := by
    intro he
    rw [he, manhattan_self] at hcd
    omega
  have hdlt : d < COST_UNDEF - 1 := by
    rw [← hcd]
    exact manhattan_lt m c b hcv hb hsmall
  have hcx : c.x < U32MOD := by have h1 := hcv.1; omega
  have hcy : c.y < U32MOD := by have h1 := hcv.2; omega
  have hqc : s.queue = c :: (t ++ q2) := by
    rw [hq, List.cons_append]
  rw [List.cons_append] at hnd
  obtain ⟨hcnot, hndtq⟩ := List.nodup_cons.mp hnd
  have hnbr : ∀ n ∈ neighborList c, posValid n m.width m.height →
      (manhattan n b + 1 = d ∧ s.costs n + 1 = d) ∨
      (manhattan n b = d + 1 ∧
        (s.costs n = COST_UNDEF - 1 ∨ s.costs n = COST_UNDEF)) := by
    intro n hn hnv
    rcases manhattan_adj m b c n hcv hnv hw hh hn with ha | ha
    · right
      refine ⟨by omega, ?_⟩
      by_cases hn2 : n ∈ q2
      · exact Or.inl (hq2 n hn2).2.2
      · exact Or.inr (hu2 n hnv (by omega) hn2)
    · left
      have hnd1 : manhattan n b < d := by omega
      have h2 := hlt n hnv hnd1
      omega
  obtain ⟨n0, hn0m, hn0v, hn0d⟩ := toward_origin m b c hb hcv hw hh (by omega)
  have hn0c : s.costs n0 + 1 = d := by
    have h2 := hlt n0 hn0v (by omega)
    omega
  have hmin : minFold m s.costs (neighborList c) COST_UNDEF + 1 = d := by
    have hub := minFold_le_mem m s.costs (neighborList c) COST_UNDEF n0 hn0m
      ⟨hn0v.1, hn0v.2⟩
    have hlb : d - 1 ≤ minFold m s.costs (neighborList c) COST_UNDEF := by
      apply minFold_ge
      · intro q hqm hqv
        rcases hnbr q hqm ⟨hqv.1, hqv.2⟩ with ⟨-, hc2⟩ | ⟨-, hc2⟩
        · omega
        · rcases hc2 with h | h
          · omega
          · omega
      · omega
    omega
  have hval : (computeCellCost m true s.costs c).value = d := by
    rw [computeCellCost_value m true s.costs c hcx hcy, hplain c hcv hcb]
    have hsc : soilCost Soil.PLAIN = 1 := rfl
    rw [hsc, if_pos (one_ne_zero : (1 : Nat) ≠ 0)]
    have he2 : minFold m s.costs (neighborList c) COST_UNDEF + 1 = d := hmin
    rw [he2, Nat.mod_eq_of_lt (by omega)]
  have hmarks := computeCellCost_costs m true s.costs c hcx hcy
  have hcostsf : ∀ q : Pos, (step m s).costs q =
      if q = c then d
      else if (q.x < m.width ∧ q.y < m.height) ∧ q ∈ neighborList c ∧
        s.costs q = COST_UNDEF then COST_UNDEF - 1
      else s.costs q := by
    intro q
    rw [step_cons m s c (t ++ q2) hqc]
    show updF (computeCellCost m true s.costs c).costs c
      (computeCellCost m true s.costs c).value q = _
    by_cases hqe : q = c
    · rw [hqe, updF_self, hval, if_pos rfl]
    · rw [updF_other _ _ _ _ hqe, if_neg hqe, hmarks]
      by_cases hcond : (q.x < m.width ∧ q.y < m.height) ∧ q ∈ neighborList c ∧
          s.costs q = COST_UNDEF
      · rw [if_pos hcond]
        exact if_pos ⟨rfl, hcond.1, hcond.2.1, hcond.2.2⟩
      · rw [if_neg hcond]
        exact if_neg (fun hcon => hcond ⟨hcon.2.1, hcon.2.2⟩)
  have hqnew : (step m s).queue =
      t ++ (q2 ++ enqList m true s.costs (neighborList c)) := by
    rw [step_cons m s c (t ++ q2) hqc]
    show (t ++ q2) ++ (computeCellCost m true s.costs c).enq = _
    rw [computeCellCost_enq m true s.costs c hcx hcy, List.append_assoc]
  have hEmem : ∀ q : Pos, q ∈ enqList m true s.costs (neighborList c) ↔
      q ∈ neighborList c ∧ posValid q m.width m.height ∧
        s.costs q = COST_UNDEF := by
    intro q
    constructor
    · intro h
      have h2 := enqList_mem m true s.costs (neighborList c) q h
      exact ⟨h2.1, ⟨h2.2.1.1, h2.2.1.2⟩, h2.2.2⟩
    · rintro ⟨h1, h2, h3⟩
      exact enqList_mem_of m s.costs (neighborList c) q h1 ⟨h2.1, h2.2⟩ h3
  have hEprops : ∀ q ∈ enqList m true s.costs (neighborList c),
      posValid q m.width m.height ∧ manhattan q b = d + 1 ∧
        s.costs q = COST_UNDEF := by
    intro q hqE
    obtain ⟨h1, h2, h3⟩ := (hEmem q).mp hqE
    refine ⟨h2, ?_, h3⟩
    rcases hnbr q h1 h2 with ⟨-, hc2⟩ | ⟨hd2, -⟩
    · omega
    · exact hd2
  have htmem : ∀ q ∈ t, posValid q m.width m.height ∧ manhattan q b = d ∧
      s.costs q = COST_UNDEF - 1 :=
    fun q hqt => hq1 q (List.mem_cons_of_mem c hqt)
  have hcnott : c ∉ t := fun h => hcnot (List.mem_append.mpr (Or.inl h))
  have hcnotq2 : c ∉ q2 := fun h => hcnot (List.mem_append.mpr (Or.inr h))
  have htne : ∀ q ∈ t, q ≠ c := fun q hqt he => hcnott (he ▸ hqt)
  have hq2ne : ∀ q ∈ q2, q ≠ c := fun q hq2m he => hcnotq2 (he ▸ hq2m)
  have hEne : ∀ q ∈ enqList m true s.costs (neighborList c), q ≠ c := by
    intro q hqE he
    have h3 := (hEprops q hqE).2.2
    rw [he, hcp] at h3
    omega
  have hpend : ∀ q : Pos, q ≠ c → s.costs q = COST_UNDEF - 1 →
      (step m s).costs q = COST_UNDEF - 1 := by
    intro q hqne hqp
    rw [hcostsf q, if_neg hqne, if_neg]
    · exact hqp
    · intro hcon
      have h2 := hcon.2.2
      omega
  have hsettled : ∀ q : Pos, q ≠ c → s.costs q < COST_UNDEF - 1 →
      (step m s).costs q = s.costs q := by
    intro q hqne hqs
    rw [hcostsf q, if_neg hqne, if_neg]
    intro hcon
    have h2 := hcon.2.2
    omega
  have hEnd : (enqList m true s.costs (neighborList c)).Nodup :=
    enqList_nodup m true s.costs (neighborList c) (neighborList_nodup c hcx hcy)
  obtain ⟨htnd, hq2nd, hdisj⟩ := List.nodup_append.mp hndtq
  have hnewnd : (t ++ (q2 ++ enqList m true s.costs (neighborList c))).Nodup := by
    rw [List.nodup_append]
    refine ⟨htnd, ?_, ?_⟩
    · rw [List.nodup_append]
      refine ⟨hq2nd, hEnd, ?_⟩
      intro a ha haE
      have h1 := (hq2 a ha).2.2
      have h2 := (hEprops a haE).2.2
      omega
    · intro a ha haQE
      rcases List.mem_append.mp haQE with h2 | hE
      · exact hdisj ha h2
      · have hp1 := (htmem a ha).2.2
        have hp2 := (hEprops a hE).2.2
        omega
  refine ⟨⟨d, t, q2 ++ enqList m true s.costs (neighborList c), ?_⟩, ?_⟩
  · unfold LInvAt
    refine ⟨hd1, hqnew, hnewnd, ?_, ?_, ?_, ?_, ?_, ?_, ?_⟩
    · intro p hp
      obtain ⟨h1, h2, h3⟩ := htmem p hp
      exact ⟨h1, h2, hpend p (htne p hp) h3⟩
    · intro p hp
      rcases List.mem_append.mp hp with h2 | hE
      · obtain ⟨h1, hd2, h3⟩ := hq2 p h2
        exact ⟨h1, hd2, hpend p (hq2ne p h2) h3⟩
      · obtain ⟨h1, hd2, h3⟩ := hEprops p hE
        have hm3 := (hEmem p).mp hE
        refine ⟨h1, hd2, ?_⟩
        rw [hcostsf p, if_neg (hEne p hE),
          if_pos ⟨⟨hm3.2.1.1, hm3.2.1.2⟩, hm3.1, hm3.2.2⟩]
    · intro p hpv hd2
      have hpne : p ≠ c := by
        intro he
        rw [he] at hd2
        omega
      have hset := hlt p hpv hd2
      have hsm := manhattan_lt m p b hpv hb hsmall
      rw [hsettled p hpne (by omega), hset]
    · intro p hpv hd2
      by_cases hpc : p = c
      · left
        rw [hcostsf p, if_pos hpc]
      · rcases heq p hpv hd2 with hs | hm
        · left
          rw [hsettled p hpc (by omega), hs]
        · rcases List.mem_cons.mp hm with he | ht2
          · exact absurd he hpc
          · exact Or.inr ht2
    · intro p hpv hd2
      have hpc : p ≠ c := by
        intro he
        rw [he] at hd2
        omega
      constructor
      · intro hp
        rcases List.mem_append.mp hp with h2 | hE
        · obtain ⟨n, hnm, hnv, hnd3, hnc⟩ := (hiff p hpv hd2).mp h2
          have hnne : n ≠ c := by
            intro he
            rw [he, hcp] at hnc
            omega
          exact ⟨n, hnm, hnv, hnd3,
            by rw [hsettled n hnne (by omega)]; exact hnc⟩
        · have hm3 := (hEmem p).mp hE
          refine ⟨c, neighbor_symm m c p hcv hpv hw hh hm3.1, hcv, hcd, ?_⟩
          rw [hcostsf c, if_pos rfl]
      · rintro ⟨n, hnm, hnv, hnd3, hnc⟩
        by_cases hnce : n = c
        · rw [hnce] at hnm
          have hpmem : p ∈ neighborList c :=
            neighbor_symm m p c hpv hcv hw hh hnm
          by_cases hp2 : p ∈ q2
          · exact List.mem_append.mpr (Or.inl hp2)
          · have hpu := hu2 p hpv hd2 hp2
            exact List.mem_append.mpr
              (Or.inr ((hEmem p).mpr ⟨hpmem, hpv, hpu⟩))
        · have hnold : s.costs n = d := by
            rw [hcostsf n, if_neg hnce] at hnc
            by_cases hcond : (n.x < m.width ∧ n.y < m.height) ∧
                n ∈ neighborList c ∧ s.costs n = COST_UNDEF
            · rw [if_pos hcond] at hnc
              omega
            · rw [if_neg hcond] at hnc
              exact hnc
          exact List.mem_append.mpr
            (Or.inl ((hiff p hpv hd2).mpr ⟨n, hnm, hnv, hnd3, hnold⟩))
    · intro p hpv hd2 hnin
      have hpc : p ≠ c := by
        intro he
        rw [he] at hd2
        omega
      have hnq2 : p ∉ q2 := fun h => hnin (List.mem_append.mpr (Or.inl h))
      have hnE : p ∉ enqList m true s.costs (neighborList c) :=
        fun h => hnin (List.mem_append.mpr (Or.inr h))
      have hpu := hu2 p hpv hd2 hnq2
      rw [hcostsf p, if_neg hpc, if_neg]
      · exact hpu
      · intro hcon
        exact hnE ((hEmem p).mpr
          ⟨hcon.2.1, ⟨hcon.1.1, hcon.1.2⟩, hcon.2.2⟩)
    · intro p hpv hd2
      have hpc : p ≠ c := by
        intro he
        rw [he] at hd2
        omega
      have hpu := hfar p hpv hd2
      rw [hcostsf p, if_neg hpc, if_neg]
      · exact hpu
      · intro hcon
        rcases hnbr p hcon.2.1 ⟨hcon.1.1, hcon.1.2⟩ with ⟨ha, -⟩ | ⟨ha, -⟩
        · omega
        · omega
  · have hstep_costs : (step m s).costs =
        updF (computeCellCost m true s.costs c).costs c d := by
      rw [step_cons m s c (t ++ q2) hqc]
      show updF (computeCellCost m true s.costs c).costs c
        (computeCellCost m true s.costs c).value = _
      rw [hval]
    rw [hstep_costs]
    have hmc : (computeCellCost m true s.costs c).costs c = COST_UNDEF - 1 := by
      rw [hmarks]
      have hninb : c ∉ neighborList c := not_mem_neighborList_self c hcx hcy
      exact (if_neg (fun hcon => hninb hcon.2.2.1)).trans hcp
    rw [settledCount_insert m (computeCellCost m true s.costs c).costs c d hcv
      (by rw [hmc]; omega) (by omega)]
    congr 1
    apply settledCount_congr
    intro p hpv
    rw [hmarks]
    show (if true = true ∧ (p.x < m.width ∧ p.y < m.height) ∧
        p ∈ neighborList c ∧ s.costs p = COST_UNDEF
      then COST_UNDEF - 1 else s.costs p) < COST_UNDEF - 1 ↔
      s.costs p < COST_UNDEF - 1
    by_cases hcond : true = true ∧ (p.x < m.width ∧ p.y < m.height) ∧
        p ∈ neighborList c ∧ s.costs p = COST_UNDEF
    · rw [if_pos hcond]
      have h2 := hcond.2.2.2
      omega
    · rw [if_neg hcond]

/-- One loop iteration on a nonempty queue preserves the layer invariant and
settles exactly one new cell. -/
theorem LInv_step (m : Map) (b : Pos)
    (hb : posValid b m.width m.height)
    (hplain : ∀ p : Pos, posValid p m.width m.height → p ≠ b →
      m.soils p = Soil.PLAIN)
    (hsmall : m.width + m.height < COST_UNDEF - 1)
    (s : RunState) (hI : LInv m b s) (hne : s.queue ≠ []) :
    LInv m b (step m s) ∧
    settledCount m (step m s).costs = settledCount m s.costs + 1 := by
  obtain ⟨d, q1, q2, hA⟩ := hI
  rcases q1 with _ | ⟨c, t⟩
  · have hA2 := LInvAt_shift m b s hb hsmall d q2 hA
    rcases q2 with _ | ⟨c, t⟩
    · exfalso
      apply hne
      rw [hA.2.1]
      rfl
    · exact LInvAt_process m b s hb hplain hsmall (d + 1) c t [] hA2
  · exact LInvAt_process m b s hb hplain hsmall d c t q2 hA

/-- The layer invariant holds at every loop index of the run. -/
theorem LInv_fuel (m : Map) (b : Pos)
    (hb : posValid b m.width m.height)
    (hbase : m.soils b = Soil.BASE_STATION)
    (hplain : ∀ p : Pos, posValid p m.width m.height → p ≠ b →
      m.soils p = Soil.PLAIN)
    (hsmall : m.width + m.height < COST_UNDEF - 1) :
    ∀ k : Nat, LInv m b (stepN m (1 + k) (initState m)) := by
  intro k
  induction k with
  | zero => exact (LInv_start m b hb hbase hplain hsmall).1
  | succ k ih =>
    have he : 1 + (k + 1) = (1 + k) + 1 := by omega
    rw [he, stepN_succ_back]
    by_cases hqe : (stepN m (1 + k) (initState m)).queue = []
    · rw [step_empty m _ hqe]
      exact ih
    · exact (LInv_step m b hb hplain hsmall _ ih hqe).1

/-- While the queue stays nonempty, the number of settled cells equals the
number of dequeues performed. -/
theorem count_fuel (m : Map) (b : Pos)
    (hb : posValid b m.width m.height)
    (hbase : m.soils b = Soil.BASE_STATION)
    (hplain : ∀ p : Pos, posValid p m.width m.height → p ≠ b →
      m.soils p = Soil.PLAIN)
    (hsmall : m.width + m.height < COST_UNDEF - 1) :
    ∀ k : Nat, (stepN m (1 + k) (initState m)).queue ≠ [] →
      settledCount m (stepN m (1 + k) (initState m)).costs = 1 + k := by
  intro k
  induction k with
  | zero =>
    intro _
    exact (LInv_start m b hb hbase hplain hsmall).2
  | succ k ih =>
    intro hne
    have he : 1 + (k + 1) = (1 + k) + 1 := by omega
    rw [he, stepN_succ_back] at hne ⊢
    have hq : (stepN m (1 + k) (initState m)).queue ≠ [] := by
      intro h0
      rw [step_empty m _ h0] at hne
      exact hne h0
    have h2 := (LInv_step m b hb hplain hsmall _
      (LInv_fuel m b hb hbase hplain hsmall k) hq).2
    rw [h2, ih hq]

/-- The queue has emptied after width times height dequeues. -/
theorem queue_empties (m : Map) (b : Pos)
    (hb : posValid b m.width m.height)
    (hbase : m.soils b = Soil.BASE_STATION)
    (hplain : ∀ p : Pos, posValid p m.width m.height → p ≠ b →
      m.soils p = Soil.PLAIN)
    (hsmall : m.width + m.height < COST_UNDEF - 1) :
    (stepN m (m.width * m.height) (initState m)).queue = [] := by
  have hU : COST_UNDEF = 4294967295 := rfl
  have hwh : 1 ≤ m.width * m.height := by
    have h1 : b.x < m.width := hb.1
    have h2 : b.y < m.height := hb.2
    exact Nat.mul_pos (by omega) (by omega)
  have he : 1 + (m.width * m.height - 1) = m.width * m.height := by omega
  by_contra hne
  have hcnt := count_fuel m b hb hbase hplain hsmall (m.width * m.height - 1)
    (by rw [he]; exact hne)
  rw [he] at hcnt
  have hI := LInv_fuel m b hb hbase hplain hsmall (m.width * m.height - 1)
  rw [he] at hI
  obtain ⟨d, q1, q2, hA⟩ := hI
  obtain ⟨hd1, hq, hnd, hq1, hq2, hlt, heq, hiff, hu2, hfar⟩ := hA
  obtain ⟨p0, hp0⟩ : ∃ p0, p0 ∈ q1 ++ q2 := by
    rcases List.exists_mem_of_ne_nil (q1 ++ q2) (by rw [← hq]; exact hne)
      with ⟨x, hx⟩
    exact ⟨x, hx⟩
  have hp0f : posValid p0 m.width m.height ∧
      (stepN m (m.width * m.height) (initState m)).costs p0 = COST_UNDEF - 1 := by
    rcases List.mem_append.mp hp0 with h1 | h2
    · exact ⟨(hq1 p0 h1).1, (hq1 p0 h1).2.2⟩
    · exact ⟨(hq2 p0 h2).1, (hq2 p0 h2).2.2⟩
  have hlt2 := settledCount_lt_of_unsettled m
    (stepN m (m.width * m.height) (initState m)).costs p0 hp0f.1
    (by rw [hp0f.2]; omega)
  omega

/-- At an empty-queue state the layer invariant pins every in-bounds cost to
the Manhattan distance from the origin. -/
theorem LInv_final (m : Map) (b : Pos)
    (hb : posValid b m.width m.height)
    (hsmall : m.width + m.height < COST_UNDEF - 1)
    (s : RunState) (hI : LInv m b s) (hqe : s.queue = []) :
    ∀ p : Pos, posValid p m.width m.height → s.costs p = manhattan p b := by
  have hU : COST_UNDEF = 4294967295 := rfl
  have hM : U32MOD = 4294967296 := rfl
  have hw : m.width < U32MOD := by omega
  have hh : m.height < U32MOD := by omega
  obtain ⟨d, q1, q2, hd1, hq, hnd, hq1, hq2, hlt, heq, hiff, hu2, hfar⟩ := hI
  rw [hqe] at hq
  obtain ⟨h1e, h2e⟩ := (List.append_eq_nil).mp hq.symm
  subst h1e
  subst h2e
  have hsetd : ∀ p : Pos, posValid p m.width m.height → manhattan p b = d →
      s.costs p = d := by
    intro p hp hd
    rcases heq p hp hd with h | h
    · exact h
    · exact absurd h (List.not_mem_nil p)
  have hno : ∀ p : Pos, posValid p m.width m.height →
      manhattan p b ≠ d + 1 := by
    intro p hp hd
    obtain ⟨n, hnm, hnv, hnd2⟩ := toward_origin m b p hb hp hw hh (by omega)
    have hmem : p ∈ ([] : List Pos) :=
      (hiff p hp hd).mpr ⟨n, hnm, hnv, by omega, hsetd n hnv (by omega)⟩
    exact absurd hmem (List.not_mem_nil p)
  intro p hp
  rcases Nat.lt_trichotomy (manhattan p b) d with h | h | h
  · exact hlt p hp h
  · rw [h]
    exact hsetd p hp h
  · exfalso
    rcases Nat.eq_or_lt_of_le h with h2 | h2
    · exact hno p hp h2.symm
    · obtain ⟨q, hqv, hqd⟩ := exists_at_dist m b hb hw hh (manhattan p b) p hp
        rfl (d + 1) (by omega)
      exact hno q hqv hqd

/-- On a cost field that already equals the Manhattan distance everywhere in
bounds, one repair-sweep cell is the identity. -/
theorem repairCell_id (m : Map) (b : Pos)
    (hb : posValid b m.width m.height)
    (hplain : ∀ p : Pos, posValid p m.width m.height → p ≠ b →
      m.soils p = Soil.PLAIN)
    (hsmall : m.width + m.height < COST_UNDEF - 1)
    (cs : Pos → Nat)
    (hcs : ∀ q : Pos, posValid q m.width m.height → cs q = manhattan q b)
    (p : Pos) (hp : posValid p m.width m.height) :
    repairCell m cs p = cs := by
  have hU : COST_UNDEF = 4294967295 := rfl
  have hM : U32MOD = 4294967296 := rfl
  have hw : m.width < U32MOD := by omega
  have hh : m.height < U32MOD := by omega
  have hpx : p.x < U32MOD := by have h1 := hp.1; omega
  have hpy : p.y < U32MOD := by have h1 := hp.2; omega
  unfold repairCell
  by_cases hcond : m.soils p ≠ Soil.CREVASSE ∧ cs p > 10000
  · rw [if_pos hcond]
    have hpb : p ≠ b := by
      intro he
      have h2 := hcond.2
      rw [hcs p hp, he, manhattan_self] at h2
      omega
    have hd1 : 1 ≤ manhattan p b := by
      by_contra h0
      have h1 : manhattan p b = 0 := by omega
      exact hpb ((manhattan_eq_zero p b).mp h1)
    obtain ⟨n0, hn0m, hn0v, hn0d⟩ := toward_origin m b p hb hp hw hh hd1
    have hsm := manhattan_lt m p b hp hb hsmall
    have hn0c : cs n0 + 1 = manhattan p b := by
      rw [hcs n0 hn0v]
      omega
    have hmin : minFold m cs (neighborList p) COST_UNDEF + 1 =
        manhattan p b := by
      have hub := minFold_le_mem m cs (neighborList p) COST_UNDEF n0 hn0m
        ⟨hn0v.1, hn0v.2⟩
      have hlb : manhattan p b - 1 ≤
          minFold m cs (neighborList p) COST_UNDEF := by
        apply minFold_ge
        · intro q hqm hqv
          have hqv2 : posValid q m.width m.height := ⟨hqv.1, hqv.2⟩
          rw [hcs q hqv2]
          rcases manhattan_adj m b p q hp hqv2 hw hh hqm with ha | ha
          · omega
          · omega
        · omega
      omega
    have hcc := computeCellCost_noQueue m cs p
    rw [hcc.1]
    have hvv : (computeCellCost m false cs p).value = manhattan p b := by
      rw [computeCellCost_value m false cs p hpx hpy, hplain p hp hpb]
      have hsc : soilCost Soil.PLAIN = 1 := rfl
      rw [hsc, if_pos (one_ne_zero : (1 : Nat) ≠ 0), hmin,
        Nat.mod_eq_of_lt (by omega)]
    rw [hvv]
    exact updF_eq_self cs p (manhattan p b) (hcs p hp)
  · rw [if_neg hcond]

/-- A repair sweep all of whose cell updates are the identity leaves the cost
field unchanged. -/
theorem repair_fold_id (m : Map) (cs : Pos → Nat)
    (h : ∀ p ∈ rowMajor m, repairCell m cs p = cs) :
    removeFalseCosts m cs = cs := by
  unfold removeFalseCosts
  have hgen : ∀ l : List Pos, (∀ p ∈ l, repairCell m cs p = cs) →
      l.foldl (repairCell m) cs = cs := by
    intro l
    induction l with
    | nil => intro _; rfl
    | cons p r ih =>
      intro hl
      rw [List.foldl_cons, hl p (List.mem_cons_self p r)]
      exact ih (fun x hx => hl x (List.mem_cons_of_mem p hx))
  exact hgen (rowMajor m) h

/-- C7, amended: on every grid with exactly one origin cell whose remaining
cells are all PLAIN (uniform traversal cost 1) and whose dimensions sum below
the sentinel band, after both passes the computed cost of every in-bounds
cell equals its Manhattan distance from the origin.  The original claim had
to be restricted from "no impassable terrain" to "all plain": mixed passable
terrain (ERG, DUNE) already breaks the Manhattan equality. -/
theorem C7_amended (m : Map) (b : Pos)
    (hb : posValid b m.width m.height)
    (hbase : m.soils b = Soil.BASE_STATION)
    (hplain : ∀ p : Pos, posValid p m.width m.height → p ≠ b →
      m.soils p = Soil.PLAIN)
    (hsmall : m.width + m.height < COST_UNDEF - 1) :
    ∀ p : Pos, posValid p m.width m.height →
      mapFromFileCosts m (m.width * m.height) p = manhattan p b := by
  have hU : COST_UNDEF = 4294967295 := rfl
  have hM : U32MOD = 4294967296 := rfl
  have hw : m.width < U32MOD := by omega
  have hh : m.height < U32MOD := by omega
  have hwh : 1 ≤ m.width * m.height := by
    have h1 : b.x < m.width := hb.1
    have h2 : b.y < m.height := hb.2
    exact Nat.mul_pos (by omega) (by omega)
  have hqe := queue_empties m b hb hbase hplain hsmall
  have hI : LInv m b (stepN m (m.width * m.height) (initState m)) := by
    have he : 1 + (m.width * m.height - 1) = m.width * m.height := by omega
    have h2 := LInv_fuel m b hb hbase hplain hsmall (m.width * m.height - 1)
    rw [he] at h2
    exact h2
  have hcs := LInv_final m b hb hsmall _ hI hqe
  intro p hp
  unfold mapFromFileCosts
  rw [computeCostsRun_eq_stepN m (m.width * m.height) hw hh ⟨b, hb, hbase⟩]
  rw [repair_fold_id m _ (fun q hq => repairCell_id m b hb hplain hsmall _
    hcs q ((mem_rowMajor m q).mp hq))]
  exact hcs p hp

/-- C7, witness at a concrete input: the amended all-plain Manhattan theorem
on the 2-by-2 plain square, at the cell diagonally opposite the origin. -/
theorem C7_witness :
    mapFromFileCosts plainSquare (plainSquare.width * plainSquare.height)
      ⟨1, 1⟩ = manhattan ⟨1, 1⟩ ⟨0, 0⟩ :=
  C7_amended plainSquare ⟨0, 0⟩ (by decide) rfl
    (fun p hv hne => by
      obtain ⟨px, py⟩ := p
      show (if px = 0 ∧ py = 0 then Soil.BASE_STATION else Soil.PLAIN) =
        Soil.PLAIN
      rw [if_neg]
      intro hc
      exact hne (by rw [Pos.mk.injEq]; exact ⟨hc.1, hc.2⟩))
    (by decide) ⟨1, 1⟩ (by decide)

end MARC
